import Mathlib


/-!
Verification of the ford-tech-gpt generation pipeline specification.

The repository ships a static frontend (web/gpt/app.js) and documents an AWS
Lambda backend that assembles prompts from rule fragments, invokes a hosted
model, and normalizes the raw model output into a strict plain-text house
style.  The backend Python source is not part of this source tree; its
behaviour is modelled here from the specification (definitions marked
"Modelled from the spec:").  The frontend generateStory function is embedded
directly from web/gpt/app.js.

Strings are modelled as List Char.  All definitions are executable.
-/


namespace FordTech


/-! ## Substring occurrence counting -/


/-- Number of positions of xs at which pat occurs as a prefix of the
corresponding suffix, i.e. the number of (possibly overlapping) occurrences
of pat as a substring of xs. -/
def countOccur (pat : List Char) : List Char → Nat
  | [] => 0
  | c :: rest => (if pat.isPrefixOf (c :: rest) then 1 else 0) + countOccur pat rest


/-! ## Phrase replacement

Fuel-based (structurally recursive, hence kernel-computable) replacement of
every occurrence of pat by repl, scanning left to right. -/

def replacePGo (pat repl : List Char) : Nat → List Char → List Char
  | _, [] => []
  | 0, xs => xs
  | Nat.succ n, c :: rest =>
      if pat.isPrefixOf (c :: rest) then
        repl ++ replacePGo pat repl n ((c :: rest).drop pat.length)
      else c :: replacePGo pat repl n rest


def replaceP (pat repl xs : List Char) : List Char := replacePGo pat repl xs.length xs


/-- The two-newline pattern: a blank line boundary. -/
def nlnl : List Char := ['\n', '\n']


/-- The literal phrase forbidden by the house style. -/
def csPat : List Char := "Customer states".toList


/-- Its mandated replacement. -/
def csRepl : List Char := "Customer reported".toList


/-- Modelled from the spec: the Customer-states rewrite pass of the Output
Normalizer (spec 4.3; the Lambda normalizer source is not in this tree).
Replaces every occurrence of the exact phrase "Customer states" by
"Customer reported". -/
def replaceCS (xs : List Char) : List Char := replaceP csPat csRepl xs


/-! ## Dash replacement -/

def emDash : Char := '—'


def enDash : Char := '–'


def isDashB (c : Char) : Bool := c == emDash || c == enDash


/-- Modelled from the spec: the dash pass of the Output Normalizer (spec 4.3):
em-dash and en-dash characters are replaced with a plain hyphen everywhere. -/
def mapDashes (xs : List Char) : List Char :=
  xs.map (fun c => if isDashB c then '-' else c)


/-! ## Line splitting and joining -/

def toLines : List Char → List (List Char)
  | [] => [[]]
  | c :: r =>
      if c = '\n' then [] :: toLines r
      else
        match toLines r with
        | [] => [[c]]
        | l :: ls => (c :: l) :: ls


def unLines : List (List Char) → List Char
  | [] => []
  | [l] => l
  | l :: ls => l ++ '\n' :: unLines ls


/-! ## Trailing-whitespace trimming -/

def isTrimWS (c : Char) : Bool := c == ' ' || c == '\t'


/-- Modelled from the spec: the per-line trailing-whitespace trim of the
Output Normalizer (spec 4.3). -/
def rtrimLine (l : List Char) : List Char := (l.reverse.dropWhile isTrimWS).reverse


/-! ## Line-start marker and label stripping -/


/-- Modelled from the spec: the list markers and section-header labels that
the Output Normalizer strips from line starts (spec 4.3 and the AGENTS rules:
bullets, numbered-list markers, and the known header labels). -/
def markerStrs : List (List Char) :=
  ["- ".toList, "* ".toList, "0. ".toList, "1. ".toList, "2. ".toList,
   "3. ".toList, "4. ".toList, "5. ".toList, "6. ".toList, "7. ".toList,
   "8. ".toList, "9. ".toList, "VIN:".toList, "Concern:".toList,
   "Diagnosis:".toList, "Repair:".toList, "Parts:".toList, "Time:".toList,
   "Verification:".toList, "Root cause:".toList]


def dropMarkerGo : List (List Char) → List Char → List Char
  | [], z => z
  | m :: ms, z => if m.isPrefixOf z then z.drop m.length else dropMarkerGo ms z


/-- Modelled from the spec: one step of line-start stripping, removing the
first matching marker or label. -/
def dropMarker (z : List Char) : List Char := dropMarkerGo markerStrs z


/-- Modelled from the spec: repeated line-start stripping until no marker or
label remains (iterating once per character bounds the loop). -/
def stripStart (z : List Char) : List Char := dropMarker^[z.length] z


/-- A line is clean if no marker or label is a prefix of it. -/
def stripFixed (l : List Char) : Prop := ∀ m ∈ markerStrs, ¬ m <+: l


/-- Modelled from the spec: the universal rules of the Output Normalizer
(spec 4.3; the Lambda backend source is absent from this tree).  Dashes are
replaced by hyphens, the phrase "Customer states" is rewritten, and the text
is then processed line by line: list markers and header labels are stripped
from line starts, trailing whitespace is trimmed from every line, and empty
lines are dropped, which collapses every run of two or more newlines into
exactly one.  The warranty root-cause merge rule is not modelled: spec
section 9 flags its merge behaviour as underspecified and no claim under
check depends on it. -/
def normalizeCore (xs : List Char) : List Char :=
  unLines (((toLines (replaceCS (mapDashes xs))).map
    (fun l => rtrimLine (stripStart l))).filter (fun l => !l.isEmpty))


/-- A line of fully normalized text: nonempty, newline-free, with no marker
or label prefix and no trailing whitespace. -/
def goodLine (l : List Char) : Prop :=
  l ≠ [] ∧ '\n' ∉ l ∧ stripFixed l ∧ rtrimLine l = l


/-- Texts that the core normalizer leaves unchanged. -/
def coreFixed (z : List Char) : Prop :=
  (∀ c ∈ z, isDashB c = false) ∧ countOccur csPat z = 0 ∧
    (z = [] ∨ ∃ ls, ls ≠ [] ∧ (∀ l ∈ ls, goodLine l) ∧ z = unLines ls)


/-! ## Warranty-mode enforcement -/

def firstLine (s : List Char) : List Char := s.takeWhile (fun c => !(c == '\n'))


def isDigitB (c : Char) : Bool := decide ('0' ≤ c) && decide (c ≤ '9')


def kmSuffix : List Char := [' ', 'k', 'm']


def mileagePat (v : List Char) : List Char := v ++ kmSuffix


/-- Modelled from the spec: warranty mileage enforcement (spec 4.3; the
Lambda backend source is absent from this tree).  When the request context
supplies a mileage value, the value suffixed with the unit km must appear in
the first paragraph without duplicating an already-present unit suffix; when
it is absent it is inserted at the front of the first paragraph, joined to
the existing text with a hyphen. -/
def mileagePass : Option (List Char) → List Char → List Char
  | none, s => s
  | some v, s =>
      if 0 < countOccur (mileagePat v) (firstLine s) then s
      else mileagePat v ++ (if s = [] then [] else (' ' :: '-' :: ' ' :: []) ++ s)


def causalPat : List Char := "Causal Part:".toList


def laborPat : List Char := "Labor Op:".toList


def causalLine : List Char := "Causal Part: Not provided".toList


def laborLine : List Char := "Labor Op: Not provided".toList


def appendLineEnd (s b : List Char) : List Char := if s = [] then b else s ++ '\n' :: b


/-- Modelled from the spec: first half of warranty metadata enforcement
(spec 4.3): append the Causal Part fallback when the field is missing. -/
def ensureMeta1 (s : List Char) : List Char :=
  if 0 < countOccur causalPat s then s else appendLineEnd s causalLine


/-- Modelled from the spec: warranty metadata enforcement (spec 4.3): the
output must contain Causal Part and Labor Op; a field the model omitted is
appended with fallback value Not provided, and a block already present is
never appended again. -/
def ensureMeta (s : List Char) : List Char :=
  if 0 < countOccur laborPat (ensureMeta1 s) then ensureMeta1 s
  else appendLineEnd (ensureMeta1 s) laborLine


inductive Mode
  | Warranty
  | CP
deriving DecidableEq


/-- Modelled from the spec: the Output Normalizer (spec 4.3).  The universal
rules run in every mode; Warranty mode additionally enforces the mileage
mention in the first paragraph and the trailing metadata block. -/
def normalize (m : Mode) (ctx : Option (List Char)) (raw : List Char) : List Char :=
  match m with
  | Mode.CP => normalizeCore raw
  | Mode.Warranty => ensureMeta (mileagePass ctx (normalizeCore raw))


/-- The mileage context the Request Handler passes to the normalizer holds
digits only. -/
def digitCtx : Option (List Char) → Prop
  | none => True
  | some v => ∀ c ∈ v, isDigitB c = true


def mileageTag : List Char := "Mileage:".toList


/-- Modelled from the spec: mileage extraction from free text (spec 4.3): a
recognizable pattern such as Mileage: 73420 inside a free-text field yields
the numeric value. -/
def findMileage : List Char → Option (List Char)
  | [] => none
  | c :: rest =>
      if mileageTag.isPrefixOf (c :: rest) then
        if (((c :: rest).drop mileageTag.length).dropWhile
            (fun x => x == ' ')).takeWhile isDigitB = [] then findMileage rest
        else some ((((c :: rest).drop mileageTag.length).dropWhile
            (fun x => x == ' ')).takeWhile isDigitB)
      else findMileage rest


/-! ## Well-formedness through the warranty passes -/


/-- State invariant after normalization passes: core-fixed text that does not
end in a newline. -/
def wfState (z : List Char) : Prop := coreFixed z ∧ z.getLast? ≠ some '\n'


def stripFixedB (l : List Char) : Bool := markerStrs.all (fun m => !(m.isPrefixOf l))


/-- Decidable statement of the house style: no blank line, no Customer
states, no em or en dash, no line starting with a marker or header label,
no trailing whitespace on any line. -/
def houseCompliant (z : List Char) : Bool :=
  decide (countOccur nlnl z = 0) && decide (countOccur csPat z = 0) &&
  z.all (fun c => !(isDashB c)) && (toLines z).all (fun l => stripFixedB l) &&
  (toLines z).all (fun l => decide (rtrimLine l = l))


/-! ## Prompt Composer and Request Handler -/

inductive SectionMode
  | diag_repair
  | diag_only
  | repair_only
deriving DecidableEq


inductive FragKey
  | base_rules
  | mode_warranty
  | mode_cp
  | output_rules
  | sec_diag_repair
  | sec_diag_only
  | sec_repair_only
deriving DecidableEq


def modeKey : Mode → FragKey
  | Mode.Warranty => FragKey.mode_warranty
  | Mode.CP => FragKey.mode_cp


def sectionKey : SectionMode → FragKey
  | SectionMode.diag_repair => FragKey.sec_diag_repair
  | SectionMode.diag_only => FragKey.sec_diag_only
  | SectionMode.repair_only => FragKey.sec_repair_only


structure GenerationRequest where
  mode : Mode
  sectionMode : SectionMode
  vin : List Char
  concern : List Char
  diagnosis : List Char
  repair : List Char
  comment : List Char
  parts : List Char
  time : List Char
  extra : List Char


/-- Modelled from the spec: the ordered fragment keys the Prompt Composer
stacks (spec 4.2): base rules, the mode fragment, output rules, then the
section template.  The optional user comment is spliced between output rules
and the section template as literal request text, not as a stored fragment. -/
def promptKeys (r : GenerationRequest) : List FragKey :=
  [FragKey.base_rules, modeKey r.mode, FragKey.output_rules, sectionKey r.sectionMode]


def labeledField (tag v : List Char) : List (List Char) :=
  if v = [] then [] else [tag ++ v]


/-- Modelled from the spec: the user-content block (spec 4.2 step 6):
user-supplied fields serialized in order with empty fields omitted. -/
def userContent (r : GenerationRequest) : List Char :=
  unLines (labeledField ("VIN: ".toList) r.vin ++
    labeledField ("Concern: ".toList) r.concern ++
    labeledField ("Diagnosis: ".toList) r.diagnosis ++
    labeledField ("Repair: ".toList) r.repair ++
    labeledField ("Parts: ".toList) r.parts ++
    labeledField ("Time: ".toList) r.time ++
    labeledField ("Extra: ".toList) r.extra)


/-- Modelled from the spec: the Prompt Composer (spec 4.2): a pure,
deterministic concatenation of the selected fragments, the optional comment,
the section template, and the serialized user content, in the fixed order. -/
def composePrompt (store : FragKey → List Char) (r : GenerationRequest) : List Char :=
  store FragKey.base_rules ++ '\n' :: (store (modeKey r.mode) ++ '\n' ::
    (store FragKey.output_rules ++ '\n' ::
      ((if r.comment = [] then [] else r.comment ++ ['\n']) ++
        (store (sectionKey r.sectionMode) ++ '\n' :: userContent r))))


structure RawRequest where
  mode : List Char
  sectionMode : List Char
  vin : List Char
  concern : List Char
  diagnosis : List Char
  repair : List Char
  comment : List Char
  parts : List Char
  time : List Char
  extra : List Char


/-- Modelled from the spec: enumeration check for the job mode (spec 4.5). -/
def parseMode (s : List Char) : Option Mode :=
  if s = "Warranty".toList then some Mode.Warranty
  else if s = "CP".toList then some Mode.CP
  else none


/-- Modelled from the spec: enumeration check for the section mode
(spec 4.5). -/
def parseSectionMode (s : List Char) : Option SectionMode :=
  if s = "diag_repair".toList then some SectionMode.diag_repair
  else if s = "diag_only".toList then some SectionMode.diag_only
  else if s = "repair_only".toList then some SectionMode.repair_only
  else none


def toGenRequest (m : Mode) (sm : SectionMode) (raw : RawRequest) : GenerationRequest :=
  { mode := m, sectionMode := sm, vin := raw.vin, concern := raw.concern,
    diagnosis := raw.diagnosis, repair := raw.repair, comment := raw.comment,
    parts := raw.parts, time := raw.time, extra := raw.extra }


inductive UpstreamOutcome
  | ok (text : List Char)
  | err (status : Nat) (details : List Char)


inductive HandlerResult
  | story (text : List Char)
  | validationError
  | upstreamError (status : Nat) (details : List Char)
deriving DecidableEq


/-- Modelled from the spec: the Request Handler (spec 4.5): validates the
mode and sectionMode enumerations, then orchestrates Composer, Invoker and
Normalizer; unknown enumeration values fail with ValidationError before any
upstream call.  The second component counts upstream invocations. -/
def handleRequest (store : FragKey → List Char)
    (invoke : List Char → UpstreamOutcome) (raw : RawRequest) :
    HandlerResult × Nat :=
  match parseMode raw.mode, parseSectionMode raw.sectionMode with
  | some m, some sm =>
      match invoke (composePrompt store (toGenRequest m sm raw)) with
      | UpstreamOutcome.ok text =>
          (HandlerResult.story (normalize m (findMileage raw.extra) text), 1)
      | UpstreamOutcome.err st d => (HandlerResult.upstreamError st d, 1)
  | _, _ => (HandlerResult.validationError, 0)


/-! ## Frontend generateStory, embedded from web/gpt/app.js -/

def jsWS (c : Char) : Bool := c == ' ' || c == '\t' || c == '\n' || c == '\r'


/-- JavaScript String.prototype.trim as used on the ask input. -/
def trimBoth (s : List Char) : List Char :=
  ((s.dropWhile jsWS).reverse.dropWhile jsWS).reverse


/-- The DOM state generateStory reads and writes: the ask input value, the
generation output value, and the generate button state. -/
structure FrontendState where
  askValue : List Char
  outputValue : List Char
  btnDisabled : Bool
  btnText : List Char


/-- The JSON body fields of the POST /generate fetch in app.js. -/
structure FetchRequest where
  mode : List Char
  sectionMode : List Char
  concern : List Char
  diagnosis : List Char
  repair : List Char
  comment : List Char
  extra : List Char
deriving DecidableEq


/-- Possible outcomes of the awaited fetch call. -/
inductive FetchOutcome
  | success (story : Option (List Char))
  | httpError (status : Nat) (errField : Option (List Char))
      (details : Option (List Char))
  | networkFailure


/-- Error text shown on a non-ok HTTP response, from app.js. -/
def errorText : Nat → Option (List Char) → Option (List Char) → List Char
  | st, none, _ => "HTTP ".toList ++ (Nat.repr st).toList
  | _, some e, none => e
  | _, some e, some d => e ++ '\n' :: d


/-- Output text for each fetch outcome, from app.js. -/
def responseText : FetchOutcome → List Char
  | FetchOutcome.success story => story.getD []
  | FetchOutcome.httpError stc e d => errorText stc e d
  | FetchOutcome.networkFailure =>
      "Network error. Check API /generate availability.".toList


/-- The request body generateStory builds from the trimmed ask, from
app.js: constant mode CP, sectionMode diag_repair, a fixed comment, and the
ask duplicated into concern, diagnosis, repair and extra. -/
def genRequestOf (ask : List Char) : FetchRequest :=
  { mode := "CP".toList, sectionMode := "diag_repair".toList,
    concern := ask, diagnosis := ask, repair := ask,
    comment := "Answer the ask directly in plain text.".toList, extra := ask }


/-- The generateStory function of web/gpt/app.js over the modelled DOM
state: on empty trimmed ask it writes the please-type message and sends
nothing; otherwise it sends the request body and, after the response,
writes the output and re-enables the button. -/
def generateStory (st : FrontendState) (outcome : FetchOutcome) :
    FrontendState × Option FetchRequest :=
  if trimBoth st.askValue = [] then
    ({ st with outputValue := "Please type your ask first.".toList }, none)
  else
    ({ st with
        outputValue := responseText outcome
        btnDisabled := false
        btnText := "Generate".toList }, some (genRequestOf (trimBoth st.askValue)))


/-! ## Sample inputs for witnesses -/

def v73 : List Char := "73420".toList


def pat73 : List Char := "73420 km".toList


def extra73 : List Char := "Mileage: 73420".toList


def sampleStore : FragKey → List Char := fun _ => "rule text".toList


def sampleRequest : GenerationRequest :=
  { mode := Mode.CP
    sectionMode := SectionMode.diag_repair
    vin := []
    concern := []
    diagnosis := "worn brake pad".toList
    repair := "replaced pad".toList
    comment := []
    parts := []
    time := []
    extra := [] }


def sampleRawBad : RawRequest :=
  { mode := "CP".toList
    sectionMode := "diag".toList
    vin := []
    concern := []
    diagnosis := "worn brake pad".toList
    repair := "replaced pad".toList
    comment := []
    parts := []
    time := []
    extra := [] }


def sampleFrontend : FrontendState :=
  { askValue := "  check engine light  ".toList
    outputValue := []
    btnDisabled := false
    btnText := "Generate".toList }


def sampleFrontendEmpty : FrontendState :=
  { askValue := "   ".toList
    outputValue := "old".toList
    btnDisabled := true
    btnText := "Generate".toList }


theorem countOccur_nil (pat : List Char) : countOccur pat [] = 0 := rfl


theorem countOccur_cons (pat : List Char) (c : Char) (rest : List Char) :
    countOccur pat (c :: rest) =
      (if pat.isPrefixOf (c :: rest) then 1 else 0) + countOccur pat rest := rfl


theorem countOccur_tail_le (pat : List Char) (c : Char) (rest : List Char) :
    countOccur pat rest ≤ countOccur pat (c :: rest) := by
  rw [countOccur_cons]; omega


/-- Counting occurrences never decreases when text is appended on the right. -/
theorem countOccur_le_append (pat a t : List Char) :
    countOccur pat a ≤ countOccur pat (a ++ t) := by
  induction a with
  | nil => simp [countOccur]
  | cons c a ih =>
      rw [List.cons_append, countOccur_cons, countOccur_cons]
      by_cases h : pat.isPrefixOf (c :: a) = true
      · have h2 : pat.isPrefixOf (c :: (a ++ t)) = true := by
          rw [List.isPrefixOf_iff_prefix] at h ⊢
          exact h.trans ⟨t, by simp⟩
        rw [if_pos h, if_pos h2]
        omega
      · rw [if_neg h]
        by_cases h2 : pat.isPrefixOf (c :: (a ++ t)) = true
        · rw [if_pos h2]; omega
        · rw [if_neg h2]; omega


/-- Counting occurrences never decreases when text is prepended on the left. -/
theorem countOccur_le_prepend (pat t a : List Char) :
    countOccur pat a ≤ countOccur pat (t ++ a) := by
  induction t with
  | nil => simp
  | cons c t ih =>
      calc countOccur pat a ≤ countOccur pat (t ++ a) := ih
        _ ≤ countOccur pat (c :: (t ++ a)) := countOccur_tail_le _ _ _
        _ = countOccur pat (c :: t ++ a) := by rw [List.cons_append]


theorem countOccur_drop_le (pat : List Char) (n : Nat) (xs : List Char) :
    countOccur pat (xs.drop n) ≤ countOccur pat xs := by
  obtain ⟨t, ht⟩ := List.drop_suffix n xs
  calc countOccur pat (xs.drop n) ≤ countOccur pat (t ++ xs.drop n) :=
        countOccur_le_prepend _ _ _
    _ = countOccur pat xs := by rw [ht]


theorem countOccur_prefix_le (pat a b : List Char) (h : a <+: b) :
    countOccur pat a ≤ countOccur pat b := by
  obtain ⟨t, ht⟩ := h
  calc countOccur pat a ≤ countOccur pat (a ++ t) := countOccur_le_append _ _ _
    _ = countOccur pat b := by rw [ht]


theorem countOccur_suffix_le (pat a b : List Char) (h : a <:+ b) :
    countOccur pat a ≤ countOccur pat b := by
  obtain ⟨t, ht⟩ := h
  calc countOccur pat a ≤ countOccur pat (t ++ a) := countOccur_le_prepend _ _ _
    _ = countOccur pat b := by rw [ht]


theorem countOccur_pos_of_pref {pat u : List Char} (hp : pat ≠ []) (h : pat <+: u) :
    0 < countOccur pat u := by
  match u, h with
  | [], h => exact absurd (List.prefix_nil.mp h) hp
  | c :: rest, h =>
      rw [countOccur_cons, if_pos (List.isPrefixOf_iff_prefix.mpr h)]
      omega


/-- A mismatch inside s between s and pat rules out pat being a prefix of
s ++ t for every t. -/
theorem not_prefix_append_of_take_ne {pat s : List Char}
    (h : s.take pat.length ≠ pat.take s.length) (t : List Char) :
    ¬ pat <+: s ++ t := by
  intro hpre
  apply h
  have heq : pat = (s ++ t).take pat.length := List.prefix_iff_eq_take.mp hpre
  by_cases hle : pat.length ≤ s.length
  · rw [List.take_append_eq_append_take, Nat.sub_eq_zero_of_le hle, List.take_zero,
      List.append_nil] at heq
    rw [← heq, List.take_of_length_le hle]
  · push_neg at hle
    rw [List.take_of_length_le (Nat.le_of_lt hle)]
    conv_rhs => rw [heq]
    rw [List.take_take, Nat.min_eq_left (Nat.le_of_lt hle),
      List.take_append_eq_append_take, Nat.sub_self, List.take_zero,
      List.append_nil, List.take_length]


/-- Occurrence count over an append when no occurrence can start inside a:
every suffix of a disagrees with pat inside a itself. -/
theorem countOccur_append_no_straddle {pat : List Char} (a t : List Char)
    (h : ∀ i, i < a.length → (a.drop i).take pat.length ≠ pat.take (a.length - i)) :
    countOccur pat (a ++ t) = countOccur pat t := by
  induction a with
  | nil => simp
  | cons c a ih =>
      have h0 := h 0 (by simp)
      simp only [List.drop_zero, Nat.sub_zero] at h0
      have hnp : ¬ pat <+: (c :: a) ++ t := not_prefix_append_of_take_ne h0 t
      have ih2 := ih (by
        intro i hi
        have := h (i + 1) (by simpa using Nat.succ_lt_succ hi)
        simpa using this)
      rw [List.cons_append, countOccur_cons, if_neg ?_, ih2]
      · omega
      · rw [List.isPrefixOf_iff_prefix]
        exact hnp


/-- Occurrence count over an append when no character of a equals the head of
pat: no occurrence can start inside a. -/
theorem countOccur_append_headfree {p0 : Char} {pat : List Char} (a t : List Char)
    (h : ∀ c ∈ a, c ≠ p0) :
    countOccur (p0 :: pat) (a ++ t) = countOccur (p0 :: pat) t := by
  induction a with
  | nil => simp
  | cons c a ih =>
      have hnp : ¬ (p0 :: pat) <+: c :: (a ++ t) := by
        intro hpre
        rcases hpre with ⟨u, hu⟩
        rw [List.cons_append] at hu
        injection hu with h1 _
        exact h c (by simp) h1.symm
      rw [List.cons_append, countOccur_cons, if_neg ?_, ih (fun x hx => h x (by simp [hx]))]
      · omega
      · rw [List.isPrefixOf_iff_prefix]
        exact hnp


theorem countOccur_eq_zero_headfree {p0 : Char} {pat : List Char} (a : List Char)
    (h : ∀ c ∈ a, c ≠ p0) : countOccur (p0 :: pat) a = 0 := by
  have := @countOccur_append_headfree p0 pat a [] h
  simpa using this


/-- If pat does not contain a newline, then a prefix occurrence in a text that
continues with a newline must lie inside the part before the newline. -/
theorem prefix_of_append_newline {pat a b : List Char}
    (hnl : '\n' ∉ pat) (h : pat <+: a ++ '\n' :: b) : pat <+: a := by
  by_cases hle : pat.length ≤ a.length
  · have heq : pat = (a ++ '\n' :: b).take pat.length := List.prefix_iff_eq_take.mp h
    rw [List.take_append_eq_append_take, Nat.sub_eq_zero_of_le hle, List.take_zero,
      List.append_nil] at heq
    rw [List.prefix_iff_eq_take]
    exact heq
  · exfalso
    push_neg at hle
    have hap : a <+: pat := by
      refine List.prefix_of_prefix_length_le (List.prefix_append _ _) h ?_
      exact Nat.le_of_lt hle
    obtain ⟨w, hw⟩ := hap
    obtain ⟨u, hu⟩ := h
    rw [← hw, List.append_assoc] at hu
    have huw : w ++ u = '\n' :: b := List.append_cancel_left hu
    cases w with
    | nil =>
        rw [List.append_nil] at hw
        rw [← hw] at hle
        exact absurd hle (by omega)
    | cons w0 w =>
        rw [List.cons_append] at huw
        injection huw with h1 _
        apply hnl
        rw [← hw, h1]
        simp


/-- Splitting an occurrence count at a newline separator, for a pattern that
contains no newline. -/
theorem countOccur_append_newline {pat : List Char} (hp : pat ≠ []) (hnl : '\n' ∉ pat)
    (a b : List Char) :
    countOccur pat (a ++ '\n' :: b) = countOccur pat a + countOccur pat b := by
  induction a with
  | nil =>
      have hnp : ¬ pat.isPrefixOf ('\n' :: b) = true := by
        rw [List.isPrefixOf_iff_prefix]
        intro hpre
        cases pat with
        | nil => exact hp rfl
        | cons c p =>
            obtain ⟨u, hu⟩ := hpre
            rw [List.cons_append] at hu
            injection hu with h1 _
            exact hnl (by simp [h1])
      rw [List.nil_append, countOccur_cons, countOccur_nil, if_neg hnp]
  | cons c a ih =>
      rw [List.cons_append, countOccur_cons, countOccur_cons pat c a, ih]
      have hiff : pat.isPrefixOf (c :: (a ++ '\n' :: b)) = pat.isPrefixOf (c :: a) := by
        rw [Bool.eq_iff_iff, List.isPrefixOf_iff_prefix, List.isPrefixOf_iff_prefix]
        constructor
        · intro hpre
          exact @prefix_of_append_newline pat (c :: a) b hnl hpre
        · intro hpre
          exact hpre.trans ⟨'\n' :: b, by simp⟩
      rw [hiff]
      omega


theorem replacePGo_nil (pat repl : List Char) (n : Nat) :
    replacePGo pat repl n [] = [] := by
  cases n <;> rfl


theorem replacePGo_succ_cons (pat repl : List Char) (n : Nat) (c : Char) (rest : List Char) :
    replacePGo pat repl (n + 1) (c :: rest) =
      if pat.isPrefixOf (c :: rest) then
        repl ++ replacePGo pat repl n ((c :: rest).drop pat.length)
      else c :: replacePGo pat repl n rest := rfl


/-- Replacement leaves a text without occurrences unchanged. -/
theorem replacePGo_eq_self_of_count_zero (pat repl : List Char) :
    ∀ n xs, countOccur pat xs = 0 → replacePGo pat repl n xs = xs := by
  intro n
  induction n with
  | zero => intro xs _; cases xs <;> rfl
  | succ n ih =>
      intro xs hc
      cases xs with
      | nil => rfl
      | cons c rest =>
          rw [countOccur_cons] at hc
          have hnp : ¬ pat.isPrefixOf (c :: rest) = true := by
            intro h
            rw [if_pos h] at hc
            omega
          have hrest : countOccur pat rest = 0 := by
            rw [if_neg hnp] at hc
            omega
          rw [replacePGo_succ_cons, if_neg hnp, ih rest hrest]


theorem replaceP_eq_self_of_count_zero (pat repl xs : List Char)
    (hc : countOccur pat xs = 0) : replaceP pat repl xs = xs :=
  replacePGo_eq_self_of_count_zero pat repl _ xs hc


/-- Every character of the replacement result comes from the input or from
the replacement string. -/
theorem mem_replacePGo (pat repl : List Char) :
    ∀ n xs c, c ∈ replacePGo pat repl n xs → c ∈ xs ∨ c ∈ repl := by
  intro n
  induction n with
  | zero =>
      intro xs c hc
      cases xs with
      | nil => simp [replacePGo_nil] at hc
      | cons d rest => exact Or.inl hc
  | succ n ih =>
      intro xs c hc
      cases xs with
      | nil => simp [replacePGo_nil] at hc
      | cons d rest =>
          rw [replacePGo_succ_cons] at hc
          by_cases hpre : pat.isPrefixOf (d :: rest) = true
          · rw [if_pos hpre] at hc
            rcases List.mem_append.mp hc with hr | hg
            · exact Or.inr hr
            · rcases ih _ c hg with hx | hr
              · exact Or.inl (List.mem_of_mem_drop hx)
              · exact Or.inr hr
          · rw [if_neg hpre] at hc
            rcases List.mem_cons.mp hc with he | hg
            · exact Or.inl (he ▸ List.mem_cons_self d rest)
            · rcases ih _ c hg with hx | hr
              · exact Or.inl (List.mem_cons_of_mem d hx)
              · exact Or.inr hr


/-- The head of the replacement result is the head of the input or the head
of the replacement string. -/
theorem head?_replacePGo (pat repl : List Char) (hr : repl ≠ []) :
    ∀ n xs, (replacePGo pat repl n xs).head? = xs.head? ∨
      (replacePGo pat repl n xs).head? = repl.head? := by
  intro n
  induction n with
  | zero => intro xs; cases xs <;> exact Or.inl rfl
  | succ n _ =>
      intro xs
      cases xs with
      | nil => exact Or.inl rfl
      | cons c rest =>
          rw [replacePGo_succ_cons]
          by_cases hpre : pat.isPrefixOf (c :: rest) = true
          · rw [if_pos hpre]
            right
            cases repl with
            | nil => exact absurd rfl hr
            | cons r0 rl => rfl
          · rw [if_neg hpre]
            exact Or.inl rfl


theorem head?_of_pref {p z : List Char} (h : p <+: z) (hp : p ≠ []) :
    p.head? = z.head? := by
  obtain ⟨u, hu⟩ := h
  cases p with
  | nil => exact absurd rfl hp
  | cons c p =>
      rw [← hu, List.cons_append]
      rfl


/-- Replacement by a nonempty newline-free string of a nonempty newline-free
pattern cannot create a blank line. -/
theorem replacePGo_no_blank (pat repl : List Char) (hp : pat ≠ [])
    (hpnl : '\n' ∉ pat) (hrnl : '\n' ∉ repl) (hr : repl ≠ []) :
    ∀ n xs, xs.length ≤ n → countOccur nlnl xs = 0 →
      countOccur nlnl (replacePGo pat repl n xs) = 0 := by
  intro n
  induction n with
  | zero =>
      intro xs hlen hc
      cases xs with
      | nil => simp [replacePGo_nil, countOccur_nil]
      | cons c rest => simp at hlen
  | succ n ih =>
      intro xs hlen hc
      cases xs with
      | nil => simp [replacePGo_nil, countOccur_nil]
      | cons c rest =>
          rw [replacePGo_succ_cons]
          by_cases hpre : pat.isPrefixOf (c :: rest) = true
          · rw [if_pos hpre]
            have hdr : countOccur nlnl ((c :: rest).drop pat.length) = 0 := by
              have := countOccur_drop_le nlnl pat.length (c :: rest)
              omega
            have hfl : ((c :: rest).drop pat.length).length ≤ n := by
              rw [List.length_drop]
              have : 1 ≤ pat.length := by
                cases pat with
                | nil => exact absurd rfl hp
                | cons _ _ => simp
              simp only [List.length_cons] at hlen ⊢
              omega
            rw [show nlnl = '\n' :: ['\n'] from rfl]
            rw [countOccur_append_headfree repl _ (fun x hx => by
              intro he
              exact hrnl (he ▸ hx))]
            exact ih _ hfl hdr
          · rw [if_neg hpre]
            have hct : countOccur nlnl rest = 0 := by
              rw [countOccur_cons] at hc
              omega
            have hfuel2 : rest.length ≤ n := by
              simp only [List.length_cons] at hlen
              omega
            have hT := ih rest hfuel2 hct
            rw [countOccur_cons, hT]
            have : ¬ nlnl.isPrefixOf (c :: replacePGo pat repl n rest) = true := by
              rw [List.isPrefixOf_iff_prefix]
              intro hnn
              obtain ⟨u, hu⟩ := hnn
              rw [show nlnl = ['\n', '\n'] from rfl] at hu
              simp only [List.cons_append] at hu
              injection hu with h1 h2
              have hhead : (replacePGo pat repl n rest).head? = some '\n' := by
                rw [← h2]; rfl
              rcases head?_replacePGo pat repl hr n rest with hcase | hcase
              · rw [hcase] at hhead
                cases rest with
                | nil => simp at hhead
                | cons r0 rl =>
                    simp only [List.head?_cons, Option.some.injEq] at hhead
                    rw [countOccur_cons] at hc
                    have : nlnl.isPrefixOf (c :: r0 :: rl) = true := by
                      rw [List.isPrefixOf_iff_prefix]
                      refine ⟨rl, ?_⟩
                      rw [show nlnl = ['\n', '\n'] from rfl, ← h1, hhead]
                      rfl
                    rw [if_pos this] at hc
                    omega
              · rw [hcase] at hhead
                apply hrnl
                cases repl with
                | nil => exact absurd rfl hr
                | cons q0 ql =>
                    simp only [List.head?_cons, Option.some.injEq] at hhead
                    rw [hhead]
                    simp
            rw [if_neg this]


/-- Suffix-transfer: a proper suffix of the pattern occurring as a prefix of
the replacement output already occurred as a prefix of the input.  Needs the
pattern head to occur nowhere else in the pattern than at position zero
(expressed via the hypothesis hh comparing heads with the replacement). -/
theorem replacePGo_drop_prefix_transfer (pat repl : List Char) (hr : repl ≠ [])
    (hh : ∀ k, k < pat.length → 1 ≤ k → (pat.drop k).head? ≠ repl.head?) :
    ∀ n xs k, 1 ≤ k → pat.drop k <+: replacePGo pat repl n xs →
      pat.drop k <+: xs := by
  intro n
  induction n with
  | zero =>
      intro xs k _ hpre
      cases xs with
      | nil => rw [replacePGo_nil] at hpre; exact hpre
      | cons c rest => exact hpre
  | succ n ih =>
      intro xs k hk hpre
      cases xs with
      | nil => rw [replacePGo_nil] at hpre; exact hpre
      | cons c rest =>
          rw [replacePGo_succ_cons] at hpre
          by_cases hpp : pat.isPrefixOf (c :: rest) = true
          · rw [if_pos hpp] at hpre
            by_cases hdk : pat.drop k = []
            · rw [hdk]; exact List.nil_prefix
            · exfalso
              have hklt : k < pat.length := by
                by_contra hge
                push_neg at hge
                rw [List.drop_eq_nil_of_le hge] at hdk
                exact hdk rfl
              apply hh k hklt hk
              rw [head?_of_pref hpre hdk]
              cases repl with
              | nil => exact absurd rfl hr
              | cons r0 rl =>
                  rw [List.cons_append]
                  rfl
          · rw [if_neg hpp] at hpre
            by_cases hdk : pat.drop k = []
            · rw [hdk]; exact List.nil_prefix
            · obtain ⟨d, q, hdq⟩ : ∃ d q, pat.drop k = d :: q := by
                cases hx : pat.drop k with
                | nil => exact absurd hx hdk
                | cons d q => exact ⟨d, q, rfl⟩
              rw [hdq] at hpre
              obtain ⟨u, hu⟩ := hpre
              rw [List.cons_append] at hu
              injection hu with h1 h2
              have hq : pat.drop (k + 1) = q := by
                have : (pat.drop k).tail = q := by rw [hdq]; rfl
                rw [← this, List.tail_drop]
              have hqpre : pat.drop (k + 1) <+: replacePGo pat repl n rest := by
                rw [hq]; exact ⟨u, h2⟩
              have := ih rest (k + 1) (by omega) hqpre
              rw [hq] at this
              rw [hdq, h1]
              obtain ⟨w, hw⟩ := this
              exact ⟨w, by rw [List.cons_append, hw]⟩


/-- Master theorem: the replacement output contains no occurrence of the
pattern, under decidable side conditions on the concrete pattern and
replacement (no suffix of repl is compatible with pat, and the head of pat
occurs only at its position zero relative to repl). -/
theorem countOccur_replacePGo_eq_zero (pat repl : List Char) (hp : pat ≠ []) (hr : repl ≠ [])
    (hns : ∀ i, i < repl.length → (repl.drop i).take pat.length ≠ pat.take (repl.length - i))
    (hh : ∀ k, k < pat.length → 1 ≤ k → (pat.drop k).head? ≠ repl.head?) :
    ∀ n xs, xs.length ≤ n → countOccur pat (replacePGo pat repl n xs) = 0 := by
  intro n
  induction n with
  | zero =>
      intro xs hlen
      cases xs with
      | nil => simp [replacePGo_nil, countOccur_nil]
      | cons c rest => simp at hlen
  | succ n ih =>
      intro xs hlen
      cases xs with
      | nil => simp [replacePGo_nil, countOccur_nil]
      | cons c rest =>
          rw [replacePGo_succ_cons]
          by_cases hpre : pat.isPrefixOf (c :: rest) = true
          · rw [if_pos hpre]
            rw [countOccur_append_no_straddle repl _ hns]
            apply ih
            rw [List.length_drop]
            have : 1 ≤ pat.length := by
              cases pat with
              | nil => exact absurd rfl hp
              | cons _ _ => simp
            simp only [List.length_cons] at hlen ⊢
            omega
          · rw [if_neg hpre]
            have hfuel2 : rest.length ≤ n := by
              simp only [List.length_cons] at hlen
              omega
            have hnocc : ¬ pat.isPrefixOf (c :: replacePGo pat repl n rest) = true := by
              rw [List.isPrefixOf_iff_prefix]
              intro hcon
              cases hpx : pat with
              | nil => exact hp hpx
              | cons p0 pt =>
                  rw [hpx] at hcon
                  obtain ⟨u, hu⟩ := hcon
                  rw [List.cons_append] at hu
                  injection hu with h1 h2
                  have hpt : pat.drop 1 = pt := by rw [hpx]; rfl
                  have htr : pat.drop 1 <+: rest := by
                    apply replacePGo_drop_prefix_transfer pat repl hr hh n rest 1 (by omega)
                    rw [hpt, hpx]
                    exact ⟨u, h2⟩
                  apply hpre
                  rw [List.isPrefixOf_iff_prefix, hpx]
                  rw [hpt] at htr
                  obtain ⟨w, hw⟩ := htr
                  exact ⟨w, by rw [List.cons_append, hw, h1]⟩
            rw [countOccur_cons, ih rest hfuel2, if_neg hnocc]


theorem countOccur_csPat_replaceCS (xs : List Char) :
    countOccur csPat (replaceCS xs) = 0 := by
  apply countOccur_replacePGo_eq_zero csPat csRepl (by decide) (by decide)
    (by decide) (by decide) _ xs (Nat.le_refl _)


theorem replaceCS_no_blank (xs : List Char) (h : countOccur nlnl xs = 0) :
    countOccur nlnl (replaceCS xs) = 0 :=
  replacePGo_no_blank csPat csRepl (by decide) (by decide) (by decide) (by decide)
    _ xs (Nat.le_refl _) h


theorem map_eq_self_of_fixed {α : Type} {f : α → α} {z : List α}
    (h : ∀ c ∈ z, f c = c) : z.map f = z := by
  induction z with
  | nil => rfl
  | cons c z ih =>
      rw [List.map_cons, h c (by simp), ih (fun x hx => h x (by simp [hx]))]


theorem isDashB_mapDashes (xs : List Char) : ∀ c ∈ mapDashes xs, isDashB c = false := by
  intro c hc
  rcases List.mem_map.mp hc with ⟨a, _, ha⟩
  by_cases hd : isDashB a = true
  · rw [← ha, if_pos hd]; decide
  · rw [← ha, if_neg hd]
    exact Bool.eq_false_iff.mpr hd


theorem mapDashes_eq_self {z : List Char} (h : ∀ c ∈ z, isDashB c = false) :
    mapDashes z = z :=
  map_eq_self_of_fixed (fun c hc => by rw [if_neg (by rw [h c hc]; simp)])


theorem unLines_nil : unLines [] = [] := rfl


theorem unLines_single (l : List Char) : unLines [l] = l := rfl


theorem unLines_cons₂ (l l2 : List Char) (ls : List (List Char)) :
    unLines (l :: l2 :: ls) = l ++ '\n' :: unLines (l2 :: ls) := rfl


theorem toLines_ne_nil (z : List Char) : toLines z ≠ [] := by
  cases z with
  | nil => simp [toLines]
  | cons c r =>
      rw [show toLines (c :: r) = if c = '\n' then [] :: toLines r else
        (match toLines r with
          | [] => [[c]]
          | l :: ls => (c :: l) :: ls) from rfl]
      by_cases h : c = '\n'
      · rw [if_pos h]; simp
      · rw [if_neg h]
        cases toLines r <;> simp


theorem toLines_cons_newline (r : List Char) : toLines ('\n' :: r) = [] :: toLines r := by
  rfl


theorem toLines_cons_other {c : Char} (r : List Char) (h : ¬ c = '\n') :
    toLines (c :: r) = (c :: (toLines r).headI) :: (toLines r).tail := by
  rw [show toLines (c :: r) = if c = '\n' then [] :: toLines r else
    (match toLines r with
      | [] => [[c]]
      | l :: ls => (c :: l) :: ls) from rfl, if_neg h]
  cases hx : toLines r with
  | nil => exact absurd hx (toLines_ne_nil r)
  | cons l ls => rfl


theorem unLines_toLines (z : List Char) : unLines (toLines z) = z := by
  induction z with
  | nil => rfl
  | cons c r ih =>
      by_cases h : c = '\n'
      · subst h
        rw [toLines_cons_newline]
        cases hx : toLines r with
        | nil => exact absurd hx (toLines_ne_nil r)
        | cons l ls =>
            rw [unLines_cons₂, List.nil_append, ← hx, ih]
      · rw [toLines_cons_other r h]
        cases hx : toLines r with
        | nil => exact absurd hx (toLines_ne_nil r)
        | cons l ls =>
            rw [hx] at ih
            simp only [List.headI_cons, List.tail_cons]
            cases ls with
            | nil =>
                rw [unLines_single] at ih ⊢
                rw [ih]
            | cons l2 ls2 =>
                rw [unLines_cons₂] at ih
                rw [unLines_cons₂, List.cons_append, ih]


theorem toLines_of_no_newline {l : List Char} (h : '\n' ∉ l) : toLines l = [l] := by
  induction l with
  | nil => rfl
  | cons c r ih =>
      have hc : ¬ c = '\n' := fun he => h (by simp [he])
      rw [toLines_cons_other r hc, ih (fun hm => h (by simp [hm]))]
      rfl


theorem toLines_append_newline {l : List Char} (r : List Char) (h : '\n' ∉ l) :
    toLines (l ++ '\n' :: r) = l :: toLines r := by
  induction l with
  | nil => rw [List.nil_append, toLines_cons_newline]
  | cons c l ih =>
      have hc : ¬ c = '\n' := fun he => h (by simp [he])
      rw [List.cons_append, toLines_cons_other _ hc,
        ih (fun hm => h (by simp [hm]))]
      rfl


theorem toLines_unLines {ls : List (List Char)} (hne : ls ≠ [])
    (h : ∀ l ∈ ls, '\n' ∉ l) : toLines (unLines ls) = ls := by
  induction ls with
  | nil => exact absurd rfl hne
  | cons l ls ih =>
      cases ls with
      | nil => rw [unLines_single]; exact toLines_of_no_newline (h l (by simp))
      | cons l2 ls2 =>
          rw [unLines_cons₂, toLines_append_newline _ (h l (by simp)),
            ih (by simp) (fun x hx => h x (by simp [hx]))]


theorem mem_toLines_no_newline (z : List Char) :
    ∀ l ∈ toLines z, '\n' ∉ l := by
  induction z with
  | nil =>
      intro l hl
      simp only [toLines] at hl
      rw [List.mem_singleton.mp hl]
      simp
  | cons c r ih =>
      intro l hl
      by_cases h : c = '\n'
      · subst h
        rw [toLines_cons_newline] at hl
        rcases List.mem_cons.mp hl with he | hm
        · rw [he]; simp
        · exact ih l hm
      · rw [toLines_cons_other r h] at hl
        rcases List.mem_cons.mp hl with he | hm
        · subst he
          intro hmem
          rcases List.mem_cons.mp hmem with he2 | hm2
          · exact h he2.symm
          · apply ih (toLines r).headI ?_ hm2
            cases hx : toLines r with
            | nil => exact absurd hx (toLines_ne_nil r)
            | cons a as => simp [List.headI]
        · apply ih l
          cases hx : toLines r with
          | nil => exact absurd hx (toLines_ne_nil r)
          | cons a as =>
              rw [hx] at hm
              simp only [List.tail] at hm
              simp [hm]


theorem mem_unLines_of_mem {ls : List (List Char)} {l : List Char} {c : Char}
    (hl : l ∈ ls) (hc : c ∈ l) : c ∈ unLines ls := by
  induction ls with
  | nil => simp at hl
  | cons a as ih =>
      cases as with
      | nil =>
          have he : l = a := by simpa using hl
          rw [unLines_single, ← he]
          exact hc
      | cons b bs =>
          rw [unLines_cons₂]
          rcases List.mem_cons.mp hl with he | hm
          · rw [he] at hc
            exact List.mem_append.mpr (Or.inl hc)
          · exact List.mem_append.mpr (Or.inr (by simp [ih hm]))


theorem mem_of_mem_unLines {ls : List (List Char)} {c : Char}
    (hc : c ∈ unLines ls) : c = '\n' ∨ ∃ l ∈ ls, c ∈ l := by
  induction ls with
  | nil => simp [unLines_nil] at hc
  | cons a as ih =>
      cases as with
      | nil =>
          rw [unLines_single] at hc
          exact Or.inr ⟨a, by simp, hc⟩
      | cons b bs =>
          rw [unLines_cons₂] at hc
          rcases List.mem_append.mp hc with ha | hrest
          · exact Or.inr ⟨a, by simp, ha⟩
          · rcases List.mem_cons.mp hrest with he | hm
            · exact Or.inl he
            · rcases ih hm with he | ⟨l, hl, hcl⟩
              · exact Or.inl he
              · exact Or.inr ⟨l, by simp [hl], hcl⟩


/-- Occurrence count of a newline-free pattern distributes over lines. -/
theorem countOccur_unLines {pat : List Char} (hp : pat ≠ []) (hnl : '\n' ∉ pat)
    (ls : List (List Char)) :
    countOccur pat (unLines ls) = (ls.map (countOccur pat)).sum := by
  induction ls with
  | nil => simp [unLines_nil, countOccur_nil]
  | cons a as ih =>
      cases as with
      | nil => simp [unLines_single]
      | cons b bs =>
          rw [unLines_cons₂, countOccur_append_newline hp hnl, ih]
          simp


theorem head?_unLines {l : List Char} (ls : List (List Char)) (h : l ≠ []) :
    (unLines (l :: ls)).head? = l.head? := by
  cases ls with
  | nil => rw [unLines_single]
  | cons b bs =>
      rw [unLines_cons₂]
      cases l with
      | nil => exact absurd rfl h
      | cons c cl =>
          rw [List.cons_append]
          rfl


/-- Joining nonempty newline-free lines with single newlines yields no blank
line. -/
theorem countOccur_nlnl_join {l : List Char} {R : List Char}
    (hl : '\n' ∉ l) (hR : R.head? ≠ some '\n') (hcR : countOccur nlnl R = 0) :
    countOccur nlnl (l ++ '\n' :: R) = 0 := by
  induction l with
  | nil =>
      have hnp : ¬ nlnl.isPrefixOf ('\n' :: R) = true := by
        rw [List.isPrefixOf_iff_prefix]
        intro hpre
        obtain ⟨u, hu⟩ := hpre
        rw [show nlnl = ['\n', '\n'] from rfl] at hu
        simp only [List.cons_append, List.nil_append] at hu
        injection hu with _ h2
        apply hR
        rw [← h2]
        rfl
      rw [List.nil_append, countOccur_cons, hcR, if_neg hnp]
  | cons c l ih =>
      have hnp : ¬ nlnl.isPrefixOf (c :: (l ++ '\n' :: R)) = true := by
        rw [List.isPrefixOf_iff_prefix]
        intro hpre
        obtain ⟨u, hu⟩ := hpre
        rw [show nlnl = ['\n', '\n'] from rfl] at hu
        simp only [List.cons_append, List.nil_append] at hu
        injection hu with h1 _
        exact hl (by simp [← h1])
      rw [List.cons_append, countOccur_cons, ih (fun hm => hl (by simp [hm])), if_neg hnp]


theorem countOccur_nlnl_unLines {ls : List (List Char)}
    (h : ∀ l ∈ ls, l ≠ [] ∧ '\n' ∉ l) : countOccur nlnl (unLines ls) = 0 := by
  induction ls with
  | nil => rfl
  | cons a as ih =>
      cases as with
      | nil =>
          rw [unLines_single]
          exact countOccur_eq_zero_headfree a (fun c hc he => (h a (by simp)).2 (he ▸ hc))
      | cons b bs =>
          rw [unLines_cons₂]
          apply countOccur_nlnl_join (h a (by simp)).2 ?_
            (ih (fun x hx => h x (by simp [hx])))
          rw [head?_unLines bs (h b (by simp)).1]
          cases b with
          | nil => exact absurd rfl (h [] (by simp)).1
          | cons c cl =>
              simp only [List.head?_cons, ne_eq, Option.some.injEq]
              intro he
              exact (h (c :: cl) (by simp)).2 (by simp [he])


theorem rtrimLine_pref (l : List Char) : rtrimLine l <+: l := by
  have h : l.reverse.dropWhile isTrimWS <:+ l.reverse :=
    List.dropWhile_suffix isTrimWS
  have h2 := List.reverse_prefix.mpr h
  rwa [List.reverse_reverse] at h2


theorem dropWhile_idem (p : Char → Bool) (x : List Char) :
    (x.dropWhile p).dropWhile p = x.dropWhile p := by
  induction x with
  | nil => rfl
  | cons c x ih =>
      rw [List.dropWhile_cons]
      by_cases h : p c = true
      · rw [if_pos h]; exact ih
      · rw [if_neg h, List.dropWhile_cons, if_neg h]


theorem rtrimLine_idem (l : List Char) : rtrimLine (rtrimLine l) = rtrimLine l := by
  unfold rtrimLine
  rw [List.reverse_reverse, dropWhile_idem]


theorem rtrimLine_append_last {c : Char} (a : List Char) (h : isTrimWS c = false) :
    rtrimLine (a ++ [c]) = a ++ [c] := by
  unfold rtrimLine
  rw [List.reverse_append]
  simp only [List.reverse_cons, List.reverse_nil, List.nil_append, List.singleton_append]
  rw [List.dropWhile_cons, if_neg (by rw [h]; simp)]
  simp


theorem rtrimLine_length_le (l : List Char) : (rtrimLine l).length ≤ l.length := by
  obtain ⟨t, ht⟩ : l.reverse.dropWhile isTrimWS <:+ l.reverse :=
    List.dropWhile_suffix isTrimWS
  have hlen := congrArg List.length ht
  simp only [List.length_append, List.length_reverse] at hlen
  unfold rtrimLine
  rw [List.length_reverse]
  omega


theorem rtrimLine_getLast {l : List Char} (hfix : rtrimLine l = l) (hne : l ≠ []) :
    ∃ a c, l = a ++ [c] ∧ isTrimWS c = false := by
  obtain ⟨a, c, hac⟩ : ∃ a c, l = a ++ [c] := by
    cases hx : l.reverse with
    | nil => exact absurd (by simpa using congrArg List.reverse hx) hne
    | cons d ds =>
        refine ⟨ds.reverse, d, ?_⟩
        have := congrArg List.reverse hx
        rwa [List.reverse_reverse, List.reverse_cons] at this
  refine ⟨a, c, hac, ?_⟩
  by_contra hws
  have hws2 : isTrimWS c = true := by
    cases hb : isTrimWS c
    · exact absurd hb hws
    · rfl
  have : rtrimLine l = rtrimLine a := by
    unfold rtrimLine
    rw [hac, List.reverse_append]
    simp only [List.reverse_cons, List.reverse_nil, List.nil_append, List.singleton_append]
    rw [List.dropWhile_cons, if_pos hws2]
  rw [hfix, hac] at this
  have hlen := congrArg List.length this
  have hle := rtrimLine_length_le a
  simp only [List.length_append, List.length_singleton] at hlen
  omega


theorem rtrimLine_prepend {A l : List Char} (hfix : rtrimLine l = l) (hne : l ≠ []) :
    rtrimLine (A ++ l) = A ++ l := by
  obtain ⟨a, c, hac, hc⟩ := rtrimLine_getLast hfix hne
  rw [hac, ← List.append_assoc]
  exact rtrimLine_append_last _ hc


theorem dropMarkerGo_suffix (ms : List (List Char)) (z : List Char) :
    dropMarkerGo ms z <:+ z := by
  induction ms with
  | nil => exact List.suffix_refl z
  | cons m ms ih =>
      rw [show dropMarkerGo (m :: ms) z =
        if m.isPrefixOf z then z.drop m.length else dropMarkerGo ms z from rfl]
      by_cases h : m.isPrefixOf z = true
      · rw [if_pos h]; exact List.drop_suffix _ _
      · rw [if_neg h]; exact ih


theorem dropMarkerGo_eq_self_iff (ms : List (List Char)) (z : List Char)
    (hne : ∀ m ∈ ms, m ≠ []) :
    dropMarkerGo ms z = z ↔ ∀ m ∈ ms, ¬ m <+: z := by
  induction ms with
  | nil => simp [dropMarkerGo]
  | cons m ms ih =>
      rw [show dropMarkerGo (m :: ms) z =
        if m.isPrefixOf z then z.drop m.length else dropMarkerGo ms z from rfl]
      by_cases h : m.isPrefixOf z = true
      · rw [if_pos h]
        have hpre := List.isPrefixOf_iff_prefix.mp h
        have hm := hne m (by simp)
        have hmlen : 1 ≤ m.length := by
          cases m with
          | nil => exact absurd rfl hm
          | cons _ _ => simp
        have hzlen : m.length ≤ z.length := hpre.length_le
        constructor
        · intro heq
          have := congrArg List.length heq
          rw [List.length_drop] at this
          omega
        · intro hall
          exact absurd hpre (hall m (by simp))
      · rw [if_neg h]
        rw [ih (fun x hx => hne x (by simp [hx]))]
        constructor
        · intro hall m2 hm2
          rcases List.mem_cons.mp hm2 with he | hmem
          · rw [he]
            intro hpre
            exact h (List.isPrefixOf_iff_prefix.mpr hpre)
          · exact hall m2 hmem
        · intro hall m2 hm2
          exact hall m2 (by simp [hm2])


theorem markerStrs_ne_nil : ∀ m ∈ markerStrs, m ≠ [] := by decide


theorem dropMarker_eq_self_iff (z : List Char) :
    dropMarker z = z ↔ ∀ m ∈ markerStrs, ¬ m <+: z :=
  dropMarkerGo_eq_self_iff markerStrs z markerStrs_ne_nil


theorem dropMarker_length_lt {z : List Char} (h : dropMarker z ≠ z) :
    (dropMarker z).length < z.length := by
  obtain ⟨t, ht⟩ := dropMarkerGo_suffix markerStrs z
  have hlen := congrArg List.length ht
  simp only [List.length_append] at hlen
  rcases Nat.eq_zero_or_pos t.length with h0 | hpos
  · exfalso
    apply h
    have ht0 : t = [] := List.length_eq_zero.mp h0
    rw [ht0, List.nil_append] at ht
    exact ht
  · show (dropMarkerGo markerStrs z).length < z.length
    omega


theorem dropMarker_iterate_fixed :
    ∀ n z, z.length ≤ n → dropMarker (dropMarker^[n] z) = dropMarker^[n] z := by
  intro n
  induction n with
  | zero =>
      intro z hlen
      have hz : z = [] := List.length_eq_zero.mp (Nat.le_zero.mp hlen)
      subst hz
      rw [Function.iterate_zero_apply]
      rw [dropMarker_eq_self_iff]
      intro m hm hpre
      exact markerStrs_ne_nil m hm (List.prefix_nil.mp hpre)
  | succ n ih =>
      intro z hlen
      by_cases hfix : dropMarker z = z
      · rw [Function.iterate_fixed hfix, hfix]
      · rw [Function.iterate_succ_apply]
        exact ih _ (by have := dropMarker_length_lt hfix; omega)


theorem dropMarker_stripStart (z : List Char) :
    dropMarker (stripStart z) = stripStart z :=
  dropMarker_iterate_fixed z.length z (Nat.le_refl _)


theorem stripStart_of_fixed {z : List Char} (h : dropMarker z = z) :
    stripStart z = z :=
  Function.iterate_fixed h _


theorem stripStart_suffix (z : List Char) : stripStart z <:+ z := by
  unfold stripStart
  generalize z.length = n
  induction n with
  | zero => exact List.suffix_refl z
  | succ n ih =>
      rw [Function.iterate_succ_apply']
      exact (dropMarkerGo_suffix markerStrs _).trans ih


theorem stripFixed_stripStart (z : List Char) : stripFixed (stripStart z) :=
  (dropMarker_eq_self_iff _).mp (dropMarker_stripStart z)


theorem stripFixed_of_pref {p z : List Char} (hp : p <+: z) (h : stripFixed z) :
    stripFixed p :=
  fun m hm hpre => h m hm (hpre.trans hp)


theorem stripStart_eq_self_of_stripFixed {z : List Char} (h : stripFixed z) :
    stripStart z = z :=
  stripStart_of_fixed ((dropMarker_eq_self_iff z).mpr h)


/-! ## The core Output Normalizer -/

theorem sum_map_filter_le (M : List (List Char)) (p : List Char → Bool)
    (f : List Char → Nat) : ((M.filter p).map f).sum ≤ (M.map f).sum := by
  induction M with
  | nil => simp
  | cons a as ih =>
      rw [List.filter_cons]
      by_cases h : p a = true
      · rw [if_pos h]
        simp only [List.map_cons, List.sum_cons]
        omega
      · rw [if_neg h]
        simp only [List.map_cons, List.sum_cons]
        omega


theorem sum_map_le_sum_map (M : List (List Char)) (f g : List Char → Nat)
    (h : ∀ l ∈ M, f l ≤ g l) : (M.map f).sum ≤ (M.map g).sum := by
  induction M with
  | nil => simp
  | cons a as ih =>
      simp only [List.map_cons, List.sum_cons]
      have h1 := h a (by simp)
      have h2 := ih (fun x hx => h x (by simp [hx]))
      omega


theorem countOccur_clean_le (pat l : List Char) :
    countOccur pat (rtrimLine (stripStart l)) ≤ countOccur pat l :=
  le_trans (countOccur_prefix_le _ _ _ (rtrimLine_pref _))
    (countOccur_suffix_le _ _ _ (stripStart_suffix _))


theorem countOccur_normalizeCore_le (pat xs : List Char) (hp : pat ≠ [])
    (hnl : '\n' ∉ pat) :
    countOccur pat (normalizeCore xs) ≤ countOccur pat (replaceCS (mapDashes xs)) := by
  unfold normalizeCore
  rw [countOccur_unLines hp hnl]
  have s1 := sum_map_filter_le ((toLines (replaceCS (mapDashes xs))).map
    (fun l => rtrimLine (stripStart l))) (fun l => !l.isEmpty) (countOccur pat)
  rw [List.map_map] at s1
  have s2 := sum_map_le_sum_map (toLines (replaceCS (mapDashes xs)))
    (countOccur pat ∘ fun l => rtrimLine (stripStart l)) (countOccur pat)
    (fun l _ => countOccur_clean_le pat l)
  have s3 := countOccur_unLines hp hnl (toLines (replaceCS (mapDashes xs)))
  rw [unLines_toLines] at s3
  omega


theorem normalizeCore_csPat_zero (xs : List Char) :
    countOccur csPat (normalizeCore xs) = 0 := by
  have h1 := countOccur_normalizeCore_le csPat xs (by decide) (by decide)
  have h2 := countOccur_csPat_replaceCS (mapDashes xs)
  omega


theorem normalizeCore_dash_free (xs : List Char) :
    ∀ c ∈ normalizeCore xs, isDashB c = false := by
  intro c hc
  unfold normalizeCore at hc
  rcases mem_of_mem_unLines hc with he | ⟨l, hl, hcl⟩
  · rw [he]; decide
  · rcases List.mem_filter.mp hl with ⟨hmap, _⟩
    rcases List.mem_map.mp hmap with ⟨l0, hl0, hgl⟩
    have hcl0 : c ∈ l0 := by
      rw [← hgl] at hcl
      exact (stripStart_suffix l0).subset ((rtrimLine_pref _).subset hcl)
    have hcR : c ∈ replaceCS (mapDashes xs) := by
      have := mem_unLines_of_mem hl0 hcl0
      rwa [unLines_toLines] at this
    rcases mem_replacePGo csPat csRepl _ _ c hcR with hx | hr
    · exact isDashB_mapDashes xs c hx
    · exact (by decide : ∀ x ∈ csRepl, isDashB x = false) c hr


theorem normalizeCore_coreFixed (xs : List Char) : coreFixed (normalizeCore xs) := by
  refine ⟨normalizeCore_dash_free xs, normalizeCore_csPat_zero xs, ?_⟩
  cases hls : ((toLines (replaceCS (mapDashes xs))).map
      (fun l => rtrimLine (stripStart l))).filter (fun l => !l.isEmpty) with
  | nil =>
      left
      unfold normalizeCore
      rw [hls, unLines_nil]
  | cons a as =>
      right
      refine ⟨a :: as, by simp, ?_, by unfold normalizeCore; rw [hls]⟩
      intro l hl
      rw [← hls] at hl
      rcases List.mem_filter.mp hl with ⟨hmap, hne⟩
      rcases List.mem_map.mp hmap with ⟨l0, hl0, hgl⟩
      have hne2 : l ≠ [] := by
        intro he
        rw [he] at hne
        exact absurd hne (by decide)
      refine ⟨hne2, ?_, ?_, ?_⟩
      · intro hmem
        apply mem_toLines_no_newline _ l0 hl0
        rw [← hgl] at hmem
        exact (stripStart_suffix l0).subset ((rtrimLine_pref _).subset hmem)
      · rw [← hgl]
        exact stripFixed_of_pref (rtrimLine_pref _) (stripFixed_stripStart l0)
      · rw [← hgl, rtrimLine_idem]


theorem normalizeCore_eq_self {z : List Char} (h : coreFixed z) : normalizeCore z = z := by
  obtain ⟨hdash, hcs, hlines⟩ := h
  have h1 : mapDashes z = z := mapDashes_eq_self hdash
  have h2 : replaceCS (mapDashes z) = z := by
    rw [h1]
    exact replaceP_eq_self_of_count_zero _ _ _ hcs
  unfold normalizeCore
  rw [h2]
  rcases hlines with hz | ⟨ls, hne, hgood, hz⟩
  · subst hz
    rfl
  · subst hz
    rw [toLines_unLines hne (fun l hl => (hgood l hl).2.1)]
    have hmap : ls.map (fun l => rtrimLine (stripStart l)) = ls := by
      apply map_eq_self_of_fixed
      intro l hl
      rw [stripStart_eq_self_of_stripFixed (hgood l hl).2.2.1, (hgood l hl).2.2.2]
    rw [hmap]
    have hfil : ls.filter (fun l => !l.isEmpty) = ls := by
      rw [List.filter_eq_self]
      intro l hl
      have hln := (hgood l hl).1
      cases l with
      | nil => exact absurd rfl hln
      | cons c cl => rfl
    rw [hfil]


theorem normalizeCore_idem (xs : List Char) :
    normalizeCore (normalizeCore xs) = normalizeCore xs :=
  normalizeCore_eq_self (normalizeCore_coreFixed xs)


theorem normalizeCore_no_blank (xs : List Char) :
    countOccur nlnl (normalizeCore xs) = 0 := by
  obtain ⟨_, _, hlines⟩ := normalizeCore_coreFixed xs
  rcases hlines with hz | ⟨ls, _, hgood, hz⟩
  · rw [hz]; rfl
  · rw [hz]
    exact countOccur_nlnl_unLines (fun l hl => ⟨(hgood l hl).1, (hgood l hl).2.1⟩)


theorem getLast?_unLines_not_nl {ls : List (List Char)}
    (h : ∀ l ∈ ls, l ≠ [] ∧ '\n' ∉ l) : (unLines ls).getLast? ≠ some '\n' := by
  induction ls with
  | nil => simp [unLines_nil]
  | cons a as ih =>
      cases as with
      | nil =>
          rw [unLines_single]
          intro hlast
          exact (h a (by simp)).2 (List.mem_of_getLast?_eq_some hlast)
      | cons b bs =>
          rw [unLines_cons₂, List.getLast?_append]
          have hbne : unLines (b :: bs) ≠ [] := by
            cases bs with
            | nil =>
                rw [unLines_single]
                exact (h b (by simp)).1
            | cons b2 bs2 =>
                rw [unLines_cons₂]
                intro he
                have := congrArg List.length he
                simp only [List.length_append, List.length_cons, List.length_nil] at this
                omega
          have hih := ih (fun x hx => h x (by simp [hx]))
          cases hx : unLines (b :: bs) with
          | nil => exact absurd hx hbne
          | cons d ds =>
              rw [List.getLast?_cons_cons]
              cases hy : (d :: ds).getLast? with
              | none => simp at hy
              | some e =>
                  rw [hx, hy] at hih
                  rw [Option.or_some]
                  exact hih


theorem firstLine_nil : firstLine [] = [] := rfl


theorem firstLine_append_newline (a b : List Char) :
    firstLine (a ++ '\n' :: b) = firstLine a := by
  induction a with
  | nil => rfl
  | cons c a ih =>
      rw [List.cons_append]
      unfold firstLine at ih ⊢
      rw [List.takeWhile_cons, List.takeWhile_cons]
      by_cases h : (!(c == '\n')) = true
      · rw [if_pos h, if_pos h, ih]
      · rw [if_neg h, if_neg h]


theorem firstLine_of_no_newline {a : List Char} (h : '\n' ∉ a) : firstLine a = a := by
  induction a with
  | nil => rfl
  | cons c a ih =>
      unfold firstLine at ih ⊢
      rw [List.takeWhile_cons, if_pos ?_, ih (fun hm => h (by simp [hm]))]
      have hc : ¬ c = '\n' := fun he => h (by simp [he])
      simp [hc]


theorem firstLine_append_of_no_newline {a : List Char} (t : List Char) (h : '\n' ∉ a) :
    firstLine (a ++ t) = a ++ firstLine t := by
  induction a with
  | nil => rfl
  | cons c a ih =>
      rw [List.cons_append]
      unfold firstLine at ih ⊢
      rw [List.takeWhile_cons, if_pos ?_, List.cons_append,
        ih (fun hm => h (by simp [hm]))]
      have hc : ¬ c = '\n' := fun he => h (by simp [he])
      simp [hc]


theorem digit_char_ne {c d : Char} (h : isDigitB c = true) (hd : isDigitB d = false) :
    c ≠ d := by
  intro he
  rw [he, hd] at h
  cases h


theorem digit_not_dash {c : Char} (h : isDigitB c = true) : isDashB c = false := by
  cases hd : isDashB c
  · rfl
  · exfalso
    have : c = emDash ∨ c = enDash := by
      rcases Bool.or_eq_true_iff.mp hd with h1 | h1
      · exact Or.inl (by simpa using h1)
      · exact Or.inr (by simpa using h1)
    rcases this with he | he <;> rw [he] at h <;> exact absurd h (by decide)


theorem mileagePass_none (s : List Char) : mileagePass none s = s := rfl


theorem mileagePass_some (v s : List Char) : mileagePass (some v) s =
    if 0 < countOccur (mileagePat v) (firstLine s) then s
    else mileagePat v ++ (if s = [] then [] else (' ' :: '-' :: ' ' :: []) ++ s) := rfl


theorem findMileage_digits : ∀ e v, findMileage e = some v → ∀ c ∈ v, isDigitB c = true := by
  intro e
  induction e with
  | nil => intro v h; cases h
  | cons c rest ih =>
      intro v h
      rw [show findMileage (c :: rest) = if mileageTag.isPrefixOf (c :: rest) then
        (if (((c :: rest).drop mileageTag.length).dropWhile
            (fun x => x == ' ')).takeWhile isDigitB = [] then findMileage rest
        else some ((((c :: rest).drop mileageTag.length).dropWhile
            (fun x => x == ' ')).takeWhile isDigitB)) else findMileage rest from rfl] at h
      by_cases h1 : mileageTag.isPrefixOf (c :: rest) = true
      · rw [if_pos h1] at h
        by_cases h2 : (((c :: rest).drop mileageTag.length).dropWhile
            (fun x => x == ' ')).takeWhile isDigitB = []
        · rw [if_pos h2] at h
          exact ih v h
        · rw [if_neg h2] at h
          injection h with hv
          intro x hx
          rw [← hv] at hx
          exact List.mem_takeWhile_imp hx
      · rw [if_neg h1] at h
        exact ih v h


/-! ## Counting through the warranty passes -/

theorem countOccur_appendLineEnd (pat : List Char) (hp : pat ≠ []) (hnl : '\n' ∉ pat)
    (s b : List Char) :
    countOccur pat (appendLineEnd s b) = countOccur pat s + countOccur pat b := by
  unfold appendLineEnd
  by_cases h : s = []
  · rw [if_pos h, h, countOccur_nil]
    omega
  · rw [if_neg h, countOccur_append_newline hp hnl]


theorem ensureMeta1_causal_count (s : List Char) :
    countOccur causalPat (ensureMeta1 s) =
      if 0 < countOccur causalPat s then countOccur causalPat s else 1 := by
  unfold ensureMeta1
  by_cases h : 0 < countOccur causalPat s
  · rw [if_pos h, if_pos h]
  · rw [if_neg h, if_neg h,
      countOccur_appendLineEnd causalPat (by decide) (by decide)]
    have h0 : countOccur causalPat s = 0 := by omega
    rw [h0]
    decide


theorem ensureMeta1_labor_count (s : List Char) :
    countOccur laborPat (ensureMeta1 s) = countOccur laborPat s := by
  unfold ensureMeta1
  by_cases h : 0 < countOccur causalPat s
  · rw [if_pos h]
  · rw [if_neg h, countOccur_appendLineEnd laborPat (by decide) (by decide)]
    have : countOccur laborPat causalLine = 0 := by decide
    omega


theorem ensureMeta_causal_count (s : List Char) :
    countOccur causalPat (ensureMeta s) = countOccur causalPat (ensureMeta1 s) := by
  unfold ensureMeta
  by_cases h : 0 < countOccur laborPat (ensureMeta1 s)
  · rw [if_pos h]
  · rw [if_neg h, countOccur_appendLineEnd causalPat (by decide) (by decide)]
    have : countOccur causalPat laborLine = 0 := by decide
    omega


theorem ensureMeta_labor_count (s : List Char) :
    countOccur laborPat (ensureMeta s) =
      if 0 < countOccur laborPat s then countOccur laborPat s else 1 := by
  unfold ensureMeta
  by_cases h : 0 < countOccur laborPat s
  · rw [if_pos (show 0 < countOccur laborPat (ensureMeta1 s) by
      rwa [ensureMeta1_labor_count]), if_pos h, ensureMeta1_labor_count]
  · rw [if_neg (show ¬ 0 < countOccur laborPat (ensureMeta1 s) by
      rwa [ensureMeta1_labor_count]), if_neg h,
      countOccur_appendLineEnd laborPat (by decide) (by decide), ensureMeta1_labor_count]
    have h0 : countOccur laborPat s = 0 := by omega
    rw [h0]
    decide


theorem ensureMeta1_ne_nil (s : List Char) : ensureMeta1 s ≠ [] := by
  unfold ensureMeta1
  by_cases h : 0 < countOccur causalPat s
  · rw [if_pos h]
    intro he
    rw [he] at h
    exact absurd h (by decide)
  · rw [if_neg h]
    unfold appendLineEnd
    by_cases h2 : s = []
    · rw [if_pos h2]; decide
    · rw [if_neg h2]
      intro he
      have := congrArg List.length he
      simp only [List.length_append, List.length_cons, List.length_nil] at this
      omega


theorem firstLine_appendLineEnd {s : List Char} (b : List Char) (h : s ≠ []) :
    firstLine (appendLineEnd s b) = firstLine s := by
  unfold appendLineEnd
  rw [if_neg h, firstLine_append_newline]


theorem firstLine_ensureMeta {s : List Char} (h : s ≠ []) :
    firstLine (ensureMeta s) = firstLine s := by
  unfold ensureMeta
  have h1 : firstLine (ensureMeta1 s) = firstLine s := by
    unfold ensureMeta1
    by_cases hc : 0 < countOccur causalPat s
    · rw [if_pos hc]
    · rw [if_neg hc, firstLine_appendLineEnd _ h]
  by_cases hl : 0 < countOccur laborPat (ensureMeta1 s)
  · rw [if_pos hl, h1]
  · rw [if_neg hl, firstLine_appendLineEnd _ (ensureMeta1_ne_nil s), h1]



theorem normalizeCore_wfState (xs : List Char) : wfState (normalizeCore xs) := by
  refine ⟨normalizeCore_coreFixed xs, ?_⟩
  obtain ⟨_, _, hlines⟩ := normalizeCore_coreFixed xs
  rcases hlines with hz | ⟨ls, _, hgood, hz⟩
  · rw [hz]; simp
  · rw [hz]
    exact getLast?_unLines_not_nl (fun l hl => ⟨(hgood l hl).1, (hgood l hl).2.1⟩)


theorem prepend_unLines (A l : List Char) (ls : List (List Char)) :
    A ++ unLines (l :: ls) = unLines ((A ++ l) :: ls) := by
  cases ls with
  | nil => rw [unLines_single, unLines_single]
  | cons b bs => rw [unLines_cons₂, unLines_cons₂, List.append_assoc]


theorem unLines_concat {ls : List (List Char)} (b : List Char) (h : ls ≠ []) :
    unLines (ls ++ [b]) = unLines ls ++ '\n' :: b := by
  induction ls with
  | nil => exact absurd rfl h
  | cons a as ih =>
      cases as with
      | nil =>
          rw [unLines_single]
          rw [show ([a] ++ [b] : List (List Char)) = [a, b] from rfl]
          rw [unLines_cons₂, unLines_single]
      | cons a2 as2 =>
          rw [show ((a :: a2 :: as2) ++ [b] : List (List Char))
            = a :: ((a2 :: as2) ++ [b]) from rfl]
          rw [show ((a2 :: as2) ++ [b] : List (List Char))
            = a2 :: (as2 ++ [b]) from rfl]
          rw [unLines_cons₂]
          rw [show (a2 :: (as2 ++ [b]) : List (List Char))
            = (a2 :: as2) ++ [b] from rfl]
          rw [ih (by simp), unLines_cons₂, List.append_assoc]
          simp


theorem stripFixed_digits_space {v t : List Char} (hv : ∀ c ∈ v, isDigitB c = true) :
    stripFixed (v ++ ' ' :: t) := by
  intro m hm hpre
  have hlen := (by decide : ∀ m ∈ markerStrs, 2 ≤ m.length) m hm
  obtain ⟨m0, m1, m2, hme⟩ : ∃ m0 m1 m2, m = m0 :: m1 :: m2 := by
    cases m with
    | nil => simp at hlen
    | cons a as =>
        cases as with
        | nil => simp at hlen
        | cons b bs => exact ⟨a, b, bs, rfl⟩
  subst hme
  obtain ⟨u, hu⟩ := hpre
  cases v with
  | nil =>
      rw [List.nil_append] at hu
      simp only [List.cons_append] at hu
      injection hu with h1 _
      exact (by decide : ∀ m ∈ markerStrs, m.headI ≠ ' ') _ hm h1
  | cons d v1 =>
      cases v1 with
      | nil =>
          simp only [List.cons_append, List.nil_append] at hu
          injection hu with h1 hu2
          injection hu2 with h2 _
          have hdig : isDigitB (m0 :: m1 :: m2).headI = true := by
            rw [show (m0 :: m1 :: m2).headI = m0 from rfl, h1]
            exact hv d (by simp)
          have hdot := (by decide : ∀ m ∈ markerStrs,
            isDigitB m.headI = true → m.tail.headI = '.') _ hm hdig
          rw [show (m0 :: m1 :: m2).tail.headI = m1 from rfl, h2] at hdot
          exact absurd hdot (by decide)
      | cons d2 v2 =>
          simp only [List.cons_append] at hu
          injection hu with h1 hu2
          injection hu2 with h2 _
          have hdig : isDigitB (m0 :: m1 :: m2).headI = true := by
            rw [show (m0 :: m1 :: m2).headI = m0 from rfl, h1]
            exact hv d (by simp)
          have hdot := (by decide : ∀ m ∈ markerStrs,
            isDigitB m.headI = true → m.tail.headI = '.') _ hm hdig
          rw [show (m0 :: m1 :: m2).tail.headI = m1 from rfl] at hdot
          have hd2 : isDigitB m1 = true := by
            rw [h2]
            exact hv d2 (by simp)
          rw [hdot] at hd2
          exact absurd hd2 (by decide)


theorem csPat_cons : csPat = 'C' :: "ustomer states".toList := by decide


theorem goodLine_causalLine : goodLine causalLine := by
  unfold goodLine stripFixed
  decide


theorem goodLine_laborLine : goodLine laborLine := by
  unfold goodLine stripFixed
  decide


theorem appendLineEnd_wf {s b : List Char} (hs : wfState s) (hb : goodLine b)
    (hbd : ∀ c ∈ b, isDashB c = false) (hbc : countOccur csPat b = 0) :
    wfState (appendLineEnd s b) := by
  unfold appendLineEnd
  by_cases h : s = []
  · rw [if_pos h]
    refine ⟨⟨hbd, hbc, Or.inr ⟨[b], by simp, ?_, (unLines_single b).symm⟩⟩, ?_⟩
    · intro l hl
      rw [List.mem_singleton.mp hl]
      exact hb
    · intro hlast
      exact hb.2.1 (List.mem_of_getLast?_eq_some hlast)
  · rw [if_neg h]
    obtain ⟨hdash, hcs, hlines⟩ := hs.1
    rcases hlines with hz | ⟨ls, hne, hgood, hz⟩
    · exact absurd hz h
    · have heq : s ++ '\n' :: b = unLines (ls ++ [b]) := by
        rw [unLines_concat b hne, hz]
      have hgood2 : ∀ l ∈ ls ++ [b], goodLine l := by
        intro l hl
        rcases List.mem_append.mp hl with hm | hm
        · exact hgood l hm
        · rw [List.mem_singleton.mp hm]
          exact hb
      refine ⟨⟨?_, ?_, Or.inr ⟨ls ++ [b], by simp [hne], hgood2, heq⟩⟩, ?_⟩
      · intro c hc
        rcases List.mem_append.mp hc with hm | hm
        · exact hdash c hm
        · rcases List.mem_cons.mp hm with he | hm2
          · rw [he]; decide
          · exact hbd c hm2
      · rw [countOccur_append_newline (by decide) (by decide), hcs, hbc]
      · rw [heq]
        exact getLast?_unLines_not_nl (fun l hl =>
          ⟨(hgood2 l hl).1, (hgood2 l hl).2.1⟩)


theorem ensureMeta_wf {s : List Char} (hs : wfState s) : wfState (ensureMeta s) := by
  have h1 : wfState (ensureMeta1 s) := by
    unfold ensureMeta1
    by_cases h : 0 < countOccur causalPat s
    · rw [if_pos h]; exact hs
    · rw [if_neg h]
      exact appendLineEnd_wf hs goodLine_causalLine (by decide) (by decide)
  unfold ensureMeta
  by_cases h : 0 < countOccur laborPat (ensureMeta1 s)
  · rw [if_pos h]; exact h1
  · rw [if_neg h]
    exact appendLineEnd_wf h1 goodLine_laborLine (by decide) (by decide)


theorem mileagePat_ne_nil (v : List Char) : mileagePat v ≠ [] := by
  unfold mileagePat kmSuffix
  intro he
  have := congrArg List.length he
  simp only [List.length_append, List.length_cons, List.length_nil] at this
  omega


theorem mileagePat_no_newline {v : List Char} (hv : ∀ c ∈ v, isDigitB c = true) :
    '\n' ∉ mileagePat v := by
  intro hm
  rcases List.mem_append.mp hm with hx | hx
  · exact digit_char_ne (hv _ hx) (by decide) rfl
  · revert hx
    decide


theorem mileagePat_dash_free {v : List Char} (hv : ∀ c ∈ v, isDigitB c = true) :
    ∀ c ∈ mileagePat v, isDashB c = false := by
  intro c hc
  rcases List.mem_append.mp hc with hx | hx
  · exact digit_not_dash (hv c hx)
  · have hck : c = ' ' ∨ c = 'k' ∨ c = 'm' := by simpa [kmSuffix] using hx
    rcases hck with h | h | h <;> rw [h] <;> decide


theorem mileagePat_no_c {v : List Char} (hv : ∀ c ∈ v, isDigitB c = true) :
    ∀ c ∈ mileagePat v, c ≠ 'C' := by
  intro c hc
  rcases List.mem_append.mp hc with hx | hx
  · exact digit_char_ne (hv c hx) (by decide)
  · have hck : c = ' ' ∨ c = 'k' ∨ c = 'm' := by simpa [kmSuffix] using hx
    rcases hck with h | h | h <;> rw [h] <;> decide


theorem mileagePass_wf {ctx : Option (List Char)} {s : List Char}
    (hd : digitCtx ctx) (hs : wfState s) : wfState (mileagePass ctx s) := by
  cases ctx with
  | none => exact hs
  | some v =>
      rw [mileagePass_some]
      by_cases hb : 0 < countOccur (mileagePat v) (firstLine s)
      · rw [if_pos hb]; exact hs
      · rw [if_neg hb]
        have hv : ∀ c ∈ v, isDigitB c = true := hd
        by_cases hse : s = []
        · rw [if_pos hse, List.append_nil]
          have hform : mileagePat v = (v ++ [' ', 'k']) ++ ['m'] := by
            unfold mileagePat kmSuffix
            simp
          refine ⟨⟨mileagePat_dash_free hv, ?_, Or.inr ⟨[mileagePat v],
            by simp, ?_, (unLines_single _).symm⟩⟩, ?_⟩
          · rw [csPat_cons]
            exact countOccur_eq_zero_headfree _ (mileagePat_no_c hv)
          · intro l hl
            rw [List.mem_singleton.mp hl]
            refine ⟨mileagePat_ne_nil v, mileagePat_no_newline hv, ?_, ?_⟩
            · exact stripFixed_digits_space hv
            · rw [hform]
              exact rtrimLine_append_last _ (by decide)
          · rw [hform, List.getLast?_concat]
            simp
        · rw [if_neg hse]
          obtain ⟨hdash, hcs, hlines⟩ := hs.1
          rcases hlines with hz | ⟨ls, hne, hgood, hz⟩
          · exact absurd hz hse
          · obtain ⟨l1, ls1, hls⟩ : ∃ l1 ls1, ls = l1 :: ls1 := by
              cases ls with
              | nil => exact absurd rfl hne
              | cons a as => exact ⟨a, as, rfl⟩
            have hA : mileagePat v ++ ((' ' :: '-' :: ' ' :: []) ++ s)
                = (v ++ (' ' :: 'k' :: 'm' :: ' ' :: '-' :: ' ' :: [])) ++ s := by
              unfold mileagePat kmSuffix
              simp
            have hAnl : '\n' ∉ v ++ (' ' :: 'k' :: 'm' :: ' ' :: '-' :: ' ' :: []) := by
              intro hm
              rcases List.mem_append.mp hm with hx | hx
              · exact digit_char_ne (hv _ hx) (by decide) rfl
              · revert hx
                decide
            have hAc : ∀ c ∈ v ++ (' ' :: 'k' :: 'm' :: ' ' :: '-' :: ' ' :: []),
                c ≠ 'C' := by
              intro c hc
              rcases List.mem_append.mp hc with hx | hx
              · exact digit_char_ne (hv c hx) (by decide)
              · have hck : c = ' ' ∨ c = 'k' ∨ c = 'm' ∨ c = ' ' ∨ c = '-' ∨ c = ' ' := by
                  simpa using hx
                rcases hck with h | h | h | h | h | h <;> rw [h] <;> decide
            have hAd : ∀ c ∈ v ++ (' ' :: 'k' :: 'm' :: ' ' :: '-' :: ' ' :: []),
                isDashB c = false := by
              intro c hc
              rcases List.mem_append.mp hc with hx | hx
              · exact digit_not_dash (hv c hx)
              · have hck : c = ' ' ∨ c = 'k' ∨ c = 'm' ∨ c = ' ' ∨ c = '-' ∨ c = ' ' := by
                  simpa using hx
                rcases hck with h | h | h | h | h | h <;> rw [h] <;> decide
            rw [hA]
            have hz2 : s = unLines (l1 :: ls1) := by rw [hz, hls]
            rw [hz2, prepend_unLines]
            set A := v ++ (' ' :: 'k' :: 'm' :: ' ' :: '-' :: ' ' :: []) with hAdef
            have hgoodA : goodLine (A ++ l1) := by
              have hg1 := hgood l1 (by rw [hls]; simp)
              refine ⟨?_, ?_, ?_, ?_⟩
              · intro he
                exact hg1.1 (List.append_eq_nil.mp he).2
              · intro hm
                rcases List.mem_append.mp hm with hx | hx
                · exact hAnl hx
                · exact hg1.2.1 hx
              · rw [hAdef, List.append_assoc]
                exact stripFixed_digits_space hv
              · exact rtrimLine_prepend hg1.2.2.2 hg1.1
            have hgood2 : ∀ l ∈ (A ++ l1) :: ls1, goodLine l := by
              intro l hl
              rcases List.mem_cons.mp hl with he | hm
              · rw [he]; exact hgoodA
              · exact hgood l (by rw [hls]; simp [hm])
            refine ⟨⟨?_, ?_, Or.inr ⟨(A ++ l1) :: ls1, by simp, hgood2, rfl⟩⟩, ?_⟩
            · intro c hc
              rcases mem_of_mem_unLines hc with he | ⟨l, hl, hcl⟩
              · rw [he]; decide
              · rcases List.mem_cons.mp hl with hel | hml
                · rw [hel] at hcl
                  rcases List.mem_append.mp hcl with hx | hx
                  · exact hAd c hx
                  · refine hdash c ?_
                    rw [hz2]
                    exact mem_unLines_of_mem (show l1 ∈ l1 :: ls1 by simp) hx
                · refine hdash c ?_
                  rw [hz2]
                  exact mem_unLines_of_mem (show l ∈ l1 :: ls1 by simp [hml]) hcl
            · rw [← prepend_unLines, ← hz2, csPat_cons,
                countOccur_append_headfree _ _ hAc, ← csPat_cons]
              exact hcs
            · exact getLast?_unLines_not_nl (fun l hl =>
                ⟨(hgood2 l hl).1, (hgood2 l hl).2.1⟩)


theorem ensureMeta_eq_self_of_counts {y : List Char}
    (hc : 0 < countOccur causalPat y) (hl : 0 < countOccur laborPat y) :
    ensureMeta y = y := by
  have h1 : ensureMeta1 y = y := by
    unfold ensureMeta1
    rw [if_pos hc]
  unfold ensureMeta
  rw [h1, if_pos hl]


theorem mileagePass_ne_nil {v : Option (List Char)} {s : List Char} (hs : s ≠ []) :
    mileagePass v s ≠ [] := by
  cases v with
  | none => exact hs
  | some w =>
      rw [mileagePass_some]
      by_cases hb : 0 < countOccur (mileagePat w) (firstLine s)
      · rw [if_pos hb]; exact hs
      · rw [if_neg hb]
        intro he
        have := congrArg List.length he
        simp only [List.length_append, List.length_nil] at this
        have h2 := mileagePat_ne_nil w
        cases hx : mileagePat w with
        | nil => exact h2 hx
        | cons a as =>
            rw [hx] at this
            simp only [List.length_cons] at this
            omega


/-! ## Normalizer-level facts -/

theorem wfState_no_blank {z : List Char} (h : wfState z) :
    countOccur nlnl z = 0 := by
  obtain ⟨⟨_, _, hlines⟩, _⟩ := h
  rcases hlines with hz | ⟨ls, _, hgood, hz⟩
  · rw [hz]; rfl
  · rw [hz]
    exact countOccur_nlnl_unLines (fun l hl => ⟨(hgood l hl).1, (hgood l hl).2.1⟩)


theorem normalize_wfState (m : Mode) (ctx : Option (List Char)) (raw : List Char)
    (h : digitCtx ctx) : wfState (normalize m ctx raw) := by
  cases m with
  | Warranty => exact ensureMeta_wf (mileagePass_wf h (normalizeCore_wfState raw))
  | CP => exact normalizeCore_wfState raw


theorem stripFixedB_of_stripFixed {l : List Char} (h : stripFixed l) :
    stripFixedB l = true := by
  unfold stripFixedB
  rw [List.all_eq_true]
  intro m hm
  cases hb : m.isPrefixOf l
  · rfl
  · exact absurd (List.isPrefixOf_iff_prefix.mp hb) (h m hm)


theorem wfState_houseCompliant {z : List Char} (h : wfState z) :
    houseCompliant z = true := by
  have h1 : countOccur nlnl z = 0 := wfState_no_blank h
  obtain ⟨⟨hdash, hcs, hlines⟩, _⟩ := h
  unfold houseCompliant
  rw [decide_eq_true h1, decide_eq_true hcs]
  have h2 : z.all (fun c => !(isDashB c)) = true := by
    rw [List.all_eq_true]
    intro c hc
    rw [hdash c hc]
    rfl
  rw [h2]
  have h3 : (toLines z).all (fun l => stripFixedB l) = true := by
    rw [List.all_eq_true]
    rcases hlines with hz | ⟨ls, hne, hgood, hz⟩
    · subst hz
      intro l hl
      rw [show toLines [] = [[]] from rfl] at hl
      rw [List.mem_singleton.mp hl]
      decide
    · subst hz
      rw [toLines_unLines hne (fun l hl => (hgood l hl).2.1)]
      intro l hl
      exact stripFixedB_of_stripFixed (hgood l hl).2.2.1
  rw [h3]
  have h4 : (toLines z).all (fun l => decide (rtrimLine l = l)) = true := by
    rw [List.all_eq_true]
    rcases hlines with hz | ⟨ls, hne, hgood, hz⟩
    · subst hz
      intro l hl
      rw [show toLines [] = [[]] from rfl] at hl
      rw [List.mem_singleton.mp hl]
      decide
    · subst hz
      rw [toLines_unLines hne (fun l hl => (hgood l hl).2.1)]
      intro l hl
      exact decide_eq_true (hgood l hl).2.2.2
  rw [h4]
  rfl


theorem ensureMeta_causal_pos (s : List Char) :
    0 < countOccur causalPat (ensureMeta s) := by
  rw [ensureMeta_causal_count, ensureMeta1_causal_count]
  by_cases h : 0 < countOccur causalPat s
  · rw [if_pos h]; exact h
  · rw [if_neg h]; exact Nat.one_pos


theorem ensureMeta_labor_pos (s : List Char) :
    0 < countOccur laborPat (ensureMeta s) := by
  rw [ensureMeta_labor_count]
  by_cases h : 0 < countOccur laborPat s
  · rw [if_pos h]; exact h
  · rw [if_neg h]; exact Nat.one_pos


theorem mileagePass_some_ne_nil (v s : List Char) : mileagePass (some v) s ≠ [] := by
  rw [mileagePass_some]
  by_cases hb : 0 < countOccur (mileagePat v) (firstLine s)
  · rw [if_pos hb]
    intro he
    rw [he] at hb
    rw [show firstLine [] = [] from rfl, countOccur_nil] at hb
    exact absurd hb (by decide)
  · rw [if_neg hb]
    intro he
    rcases List.append_eq_nil.mp he with ⟨h1, _⟩
    exact mileagePat_ne_nil v h1


theorem mileagePass_firstLine_pos {v : List Char} (s : List Char)
    (hv : ∀ c ∈ v, isDigitB c = true) :
    0 < countOccur (mileagePat v) (firstLine (mileagePass (some v) s)) := by
  rw [mileagePass_some]
  by_cases hb : 0 < countOccur (mileagePat v) (firstLine s)
  · rw [if_pos hb]; exact hb
  · rw [if_neg hb]
    by_cases hse : s = []
    · rw [if_pos hse, List.append_nil,
        firstLine_of_no_newline (mileagePat_no_newline hv)]
      exact countOccur_pos_of_pref (mileagePat_ne_nil v) (List.prefix_refl _)
    · rw [if_neg hse,
        firstLine_append_of_no_newline _ (mileagePat_no_newline hv)]
      exact countOccur_pos_of_pref (mileagePat_ne_nil v) (List.prefix_append _ _)


theorem normalize_warranty_eq (ctx : Option (List Char)) (raw : List Char) :
    normalize Mode.Warranty ctx raw
      = ensureMeta (mileagePass ctx (normalizeCore raw)) := rfl



/-! ## Claims -/


/-- Claim C1: for every raw model output, in every mode and for every
mileage context the Request Handler can supply (digits only), the
normalized story contains no blank line: no two consecutive newline
characters remain, every run of newlines having been collapsed to one. -/
theorem claim_C1_no_blank_lines (m : Mode) (ctx : Option (List Char))
    (raw : List Char) (h : digitCtx ctx) :
    countOccur nlnl (normalize m ctx raw) = 0 :=
  wfState_no_blank (normalize_wfState m ctx raw h)


/-- Witness for C1 at a concrete input with a run of three newlines. -/
theorem claim_C1_witness :
    countOccur nlnl (normalize Mode.Warranty (some v73)
      ("Pad worn.\n\n\nReplaced pad.".toList)) = 0 :=
  claim_C1_no_blank_lines Mode.Warranty (some v73) _
    (show ∀ c ∈ v73, isDigitB c = true by decide)


/-- Claim C2 counterexample: a raw output that already mentions Causal Part
twice keeps both mentions, so the normalized story does not contain the
field exactly once as the claim states. -/
theorem claim_C2_counterexample :
    countOccur causalPat (normalize Mode.Warranty none
      ("Causal Part: A\nCausal Part: B\nLabor Op: C".toList)) ≠ 1 := by
  decide


/-- Claim C2 (amended): in Warranty mode the normalized story contains
Causal Part and Labor Op at least once each, a missing field being appended
with the fallback value; each appears exactly once provided the text
entering the metadata step mentions it at most once (the normalizer does
not deduplicate fields the model emitted more than once). -/
theorem claim_C2_metadata_amended (ctx : Option (List Char)) (raw : List Char) :
    (1 ≤ countOccur causalPat (normalize Mode.Warranty ctx raw) ∧
     1 ≤ countOccur laborPat (normalize Mode.Warranty ctx raw)) ∧
    (countOccur causalPat (mileagePass ctx (normalizeCore raw)) ≤ 1 →
      countOccur causalPat (normalize Mode.Warranty ctx raw) = 1) ∧
    (countOccur laborPat (mileagePass ctx (normalizeCore raw)) ≤ 1 →
      countOccur laborPat (normalize Mode.Warranty ctx raw) = 1) := by
  rw [normalize_warranty_eq]
  refine ⟨⟨ensureMeta_causal_pos _, ensureMeta_labor_pos _⟩, ?_, ?_⟩
  · intro hle
    rw [ensureMeta_causal_count, ensureMeta1_causal_count]
    by_cases h : 0 < countOccur causalPat (mileagePass ctx (normalizeCore raw))
    · rw [if_pos h]; omega
    · rw [if_neg h]
  · intro hle
    rw [ensureMeta_labor_count]
    by_cases h : 0 < countOccur laborPat (mileagePass ctx (normalizeCore raw))
    · rw [if_pos h]; omega
    · rw [if_neg h]


/-- Witness for the amended C2 at a concrete input without metadata. -/
theorem claim_C2_witness :
    countOccur causalPat (normalize Mode.Warranty none ("Pad worn.".toList)) = 1 ∧
    countOccur laborPat (normalize Mode.Warranty none ("Pad worn.".toList)) = 1 :=
  ⟨(claim_C2_metadata_amended none ("Pad worn.".toList)).2.1 (by decide),
   (claim_C2_metadata_amended none ("Pad worn.".toList)).2.2 (by decide)⟩


/-- Claim C3 counterexample: a raw output whose first paragraph already
mentions 73420 km twice is left unchanged by the presence check, so the
phrase does not occur exactly once as the claim states. -/
theorem claim_C3_counterexample :
    countOccur pat73 (firstLine (normalize Mode.Warranty (findMileage extra73)
      ("73420 km twice 73420 km".toList))) ≠ 1 := by
  decide


/-- Claim C3 (amended): with the mileage supplied only through the free-text
field extra as Mileage: 73420, the first paragraph of the normalized story
contains 73420 km at least once, and exactly once provided the normalized
body mentioned it at most once before warranty enforcement (an
already-present unit suffix is never duplicated). -/
theorem claim_C3_mileage_amended (raw : List Char) :
    1 ≤ countOccur pat73 (firstLine
      (normalize Mode.Warranty (findMileage extra73) raw)) ∧
    (countOccur pat73 (firstLine (normalizeCore raw)) ≤ 1 →
      countOccur pat73 (firstLine
        (normalize Mode.Warranty (findMileage extra73) raw)) = 1) := by
  have hctx : findMileage extra73 = some v73 := by decide
  have hpe : mileagePat v73 = pat73 := by decide
  have hv : ∀ c ∈ v73, isDigitB c = true := by decide
  rw [hctx, normalize_warranty_eq,
    firstLine_ensureMeta (mileagePass_some_ne_nil v73 (normalizeCore raw))]
  constructor
  · have := mileagePass_firstLine_pos (normalizeCore raw) hv
    rw [hpe] at this
    omega
  · intro hle
    rw [mileagePass_some, hpe]
    by_cases hb : 0 < countOccur pat73 (firstLine (normalizeCore raw))
    · rw [if_pos hb]
      omega
    · rw [if_neg hb]
      have h0 : countOccur pat73 (firstLine (normalizeCore raw)) = 0 := by omega
      by_cases hse : normalizeCore raw = []
      · rw [if_pos hse, List.append_nil]
        decide
      · rw [if_neg hse,
          firstLine_append_of_no_newline _ (show '\n' ∉ pat73 by decide),
          firstLine_append_of_no_newline _
            (show '\n' ∉ (' ' :: '-' :: ' ' :: []) by decide)]
        have heq : pat73 ++ ((' ' :: '-' :: ' ' :: []) ++ firstLine (normalizeCore raw))
            = '7' :: ("3420 km - ".toList ++ firstLine (normalizeCore raw)) := by
          rw [show pat73 = '7' :: "3420 km".toList from by decide, List.cons_append,
            ← List.append_assoc,
            show "3420 km".toList ++ (' ' :: '-' :: ' ' :: [])
              = "3420 km - ".toList from by decide]
        rw [heq, countOccur_cons]
        have hpre2 : pat73.isPrefixOf
            ('7' :: ("3420 km - ".toList ++ firstLine (normalizeCore raw))) = true := by
          rw [List.isPrefixOf_iff_prefix]
          refine ⟨" - ".toList ++ firstLine (normalizeCore raw), ?_⟩
          rw [← List.append_assoc,
            show pat73 ++ " - ".toList = '7' :: "3420 km - ".toList from by decide,
            List.cons_append]
        rw [if_pos hpre2,
          countOccur_append_no_straddle ("3420 km - ".toList) _ (by decide), h0]


/-- Witness for the amended C3 at a concrete input without a mileage
mention. -/
theorem claim_C3_witness :
    countOccur pat73 (firstLine (normalize Mode.Warranty (findMileage extra73)
      ("Pad worn.".toList))) = 1 :=
  (claim_C3_mileage_amended ("Pad worn.".toList)).2 (by decide)


/-- Claim C4: for every request with mode CP, the composed prompt stacks
base_rules, mode_cp, output_rules and the section template selected by
sectionMode in that order, the mode_warranty fragment is absent, and
composition is a pure function of the store and the request (determinism is
by construction: composePrompt is a function with no other inputs). -/
theorem claim_C4_composer (store : FragKey → List Char) (r : GenerationRequest)
    (h : r.mode = Mode.CP) :
    promptKeys r = [FragKey.base_rules, FragKey.mode_cp, FragKey.output_rules,
      sectionKey r.sectionMode] ∧
    FragKey.mode_warranty ∉ promptKeys r ∧
    ∃ t1 t2 t3 t4, composePrompt store r =
      store FragKey.base_rules ++ t1 ++ (store FragKey.mode_cp ++ t2 ++
        (store FragKey.output_rules ++ t3 ++
          (store (sectionKey r.sectionMode) ++ t4))) := by
  have hkey : modeKey r.mode = FragKey.mode_cp := by
    rw [h]
    rfl
  refine ⟨?_, ?_, ?_⟩
  · unfold promptKeys
    rw [hkey]
  · unfold promptKeys
    rw [hkey]
    intro hm
    simp only [List.mem_cons, List.not_mem_nil, or_false] at hm
    rcases hm with he | he | he | he
    · exact absurd he (by decide)
    · exact absurd he (by decide)
    · exact absurd he (by decide)
    · cases hsm : r.sectionMode <;> rw [hsm] at he <;> exact absurd he (by decide)
  · unfold composePrompt
    rw [hkey]
    by_cases hc : r.comment = []
    · rw [if_pos hc]
      refine ⟨'\n' :: [], '\n' :: [], '\n' :: [], '\n' :: userContent r, ?_⟩
      simp
    · rw [if_neg hc]
      refine ⟨'\n' :: [], '\n' :: [], '\n' :: (r.comment ++ ['\n']),
        '\n' :: userContent r, ?_⟩
      simp


/-- Witness for C4 at the concrete CP request of the specification
scenario. -/
theorem claim_C4_witness :
    promptKeys sampleRequest = [FragKey.base_rules, FragKey.mode_cp,
      FragKey.output_rules, sectionKey sampleRequest.sectionMode] ∧
    FragKey.mode_warranty ∉ promptKeys sampleRequest ∧
    ∃ t1 t2 t3 t4, composePrompt sampleStore sampleRequest =
      sampleStore FragKey.base_rules ++ t1 ++ (sampleStore FragKey.mode_cp ++ t2 ++
        (sampleStore FragKey.output_rules ++ t3 ++
          (sampleStore (sectionKey sampleRequest.sectionMode) ++ t4))) :=
  claim_C4_composer sampleStore sampleRequest rfl


/-- Claim C5: a request whose mode or sectionMode value is outside the
enumerated set fails with ValidationError and no upstream call is made. -/
theorem claim_C5_validation (store : FragKey → List Char)
    (invoke : List Char → UpstreamOutcome) (raw : RawRequest)
    (h : parseMode raw.mode = none ∨ parseSectionMode raw.sectionMode = none) :
    handleRequest store invoke raw = (HandlerResult.validationError, 0) := by
  unfold handleRequest
  rcases h with h | h
  · rw [h]
  · rw [h]
    cases parseMode raw.mode <;> rfl


/-- Witness for C5 at a request with an unknown sectionMode value. -/
theorem claim_C5_witness :
    handleRequest sampleStore (fun _ => UpstreamOutcome.ok []) sampleRawBad
      = (HandlerResult.validationError, 0) :=
  claim_C5_validation sampleStore (fun _ => UpstreamOutcome.ok []) sampleRawBad
    (Or.inr (by decide))


/-- Claim C6: normalization is idempotent: applying the normalizer twice
with the same mode and mileage context yields the same story as applying it
once (for every digits-only mileage context the handler can supply). -/
theorem claim_C6_idempotent (m : Mode) (ctx : Option (List Char)) (raw : List Char)
    (h : digitCtx ctx) :
    normalize m ctx (normalize m ctx raw) = normalize m ctx raw := by
  cases m with
  | CP => exact normalizeCore_idem raw
  | Warranty =>
      have hwfw := mileagePass_wf h (normalizeCore_wfState raw)
      have hwfy := ensureMeta_wf hwfw
      show ensureMeta (mileagePass ctx (normalizeCore
        (ensureMeta (mileagePass ctx (normalizeCore raw)))))
        = ensureMeta (mileagePass ctx (normalizeCore raw))
      rw [normalizeCore_eq_self hwfy.1]
      have hmil : mileagePass ctx (ensureMeta (mileagePass ctx (normalizeCore raw)))
          = ensureMeta (mileagePass ctx (normalizeCore raw)) := by
        cases ctx with
        | none => exact mileagePass_none _
        | some v =>
            have hv : ∀ c ∈ v, isDigitB c = true := h
            have hpos : 0 < countOccur (mileagePat v) (firstLine
                (ensureMeta (mileagePass (some v) (normalizeCore raw)))) := by
              rw [firstLine_ensureMeta (mileagePass_some_ne_nil v (normalizeCore raw))]
              exact mileagePass_firstLine_pos (normalizeCore raw) hv
            rw [mileagePass_some, if_pos hpos]
      rw [hmil]
      exact ensureMeta_eq_self_of_counts (ensureMeta_causal_pos _) (ensureMeta_labor_pos _)


/-- Witness for C6 at a concrete warranty input. -/
theorem claim_C6_witness :
    normalize Mode.Warranty (some v73) (normalize Mode.Warranty (some v73)
      ("- Pad worn.\n\nCustomer states noise.".toList))
      = normalize Mode.Warranty (some v73) ("- Pad worn.\n\nCustomer states noise.".toList) :=
  claim_C6_idempotent Mode.Warranty (some v73) _
    (show ∀ c ∈ v73, isDigitB c = true by decide)


/-- Claim C7: normalization is total (a Lean function, defined for every
input string) and always yields a house-style-compliant string: no blank
lines, no Customer states, no em or en dashes, no marker or header label at
any line start, and no trailing whitespace on any line, degrading
gracefully through fallbacks rather than failing. -/
theorem claim_C7_total_compliant (m : Mode) (ctx : Option (List Char))
    (raw : List Char) (h : digitCtx ctx) :
    houseCompliant (normalize m ctx raw) = true :=
  wfState_houseCompliant (normalize_wfState m ctx raw h)


/-- Witness for C7 at a malformed concrete input. -/
theorem claim_C7_witness :
    houseCompliant (normalize Mode.Warranty (some v73)
      ("- VIN: 123\n\n\nDiagnosis: worn — pad  ".toList)) = true :=
  claim_C7_total_compliant Mode.Warranty (some v73) _
    (show ∀ c ∈ v73, isDigitB c = true by decide)


/-- Claim C8: the normalized story never contains the exact phrase Customer
states, every occurrence having been rewritten, and the rewrite pass leaves
any text without that exact phrase unchanged, so no other occurrence of the
word states is altered. -/
theorem claim_C8_customer_states (m : Mode) (ctx : Option (List Char))
    (raw : List Char) (h : digitCtx ctx) :
    countOccur csPat (normalize m ctx raw) = 0 ∧
      (countOccur csPat raw = 0 → replaceCS raw = raw) :=
  ⟨(normalize_wfState m ctx raw h).1.2.1,
    fun hz => replaceP_eq_self_of_count_zero _ _ _ hz⟩


/-- Witness for C8 at a concrete input containing the phrase. -/
theorem claim_C8_witness :
    countOccur csPat (normalize Mode.CP none
      ("Customer states the brake states poorly.".toList)) = 0 ∧
    (countOccur csPat ("He states facts.".toList) = 0 →
      replaceCS ("He states facts.".toList) = "He states facts.".toList) :=
  ⟨(claim_C8_customer_states Mode.CP none _ trivial).1,
    (claim_C8_customer_states Mode.CP none ("He states facts.".toList) trivial).2⟩


/-- Claim C9: whenever the trimmed ask is nonempty, the frontend
generateStory sends exactly one request whose body carries the constant
mode CP, sectionMode diag_repair and fixed comment, with the ask duplicated
into concern, diagnosis, repair and extra; its mode is never Warranty, so
the backend Warranty mode is unreachable from this frontend. -/
theorem claim_C9_frontend_request (st : FrontendState) (o : FetchOutcome)
    (h : trimBoth st.askValue ≠ []) :
    (generateStory st o).2 = some (genRequestOf (trimBoth st.askValue)) ∧
    (genRequestOf (trimBoth st.askValue)).mode = "CP".toList ∧
    (genRequestOf (trimBoth st.askValue)).sectionMode = "diag_repair".toList ∧
    (genRequestOf (trimBoth st.askValue)).comment
      = "Answer the ask directly in plain text.".toList ∧
    (genRequestOf (trimBoth st.askValue)).concern = trimBoth st.askValue ∧
    (genRequestOf (trimBoth st.askValue)).diagnosis = trimBoth st.askValue ∧
    (genRequestOf (trimBoth st.askValue)).repair = trimBoth st.askValue ∧
    (genRequestOf (trimBoth st.askValue)).extra = trimBoth st.askValue ∧
    (genRequestOf (trimBoth st.askValue)).mode ≠ "Warranty".toList := by
  refine ⟨?_, rfl, rfl, rfl, rfl, rfl, rfl, rfl,
    show ("CP".toList : List Char) ≠ "Warranty".toList by decide⟩
  unfold generateStory
  rw [if_neg h]


/-- Witness for C9 at a concrete nonempty ask. -/
theorem claim_C9_witness :
    (generateStory sampleFrontend (FetchOutcome.success (some ("ok".toList)))).2
      = some (genRequestOf (trimBoth sampleFrontend.askValue)) ∧
    (genRequestOf (trimBoth sampleFrontend.askValue)).mode = "CP".toList ∧
    (genRequestOf (trimBoth sampleFrontend.askValue)).sectionMode = "diag_repair".toList ∧
    (genRequestOf (trimBoth sampleFrontend.askValue)).comment
      = "Answer the ask directly in plain text.".toList ∧
    (genRequestOf (trimBoth sampleFrontend.askValue)).concern
      = trimBoth sampleFrontend.askValue ∧
    (genRequestOf (trimBoth sampleFrontend.askValue)).diagnosis
      = trimBoth sampleFrontend.askValue ∧
    (genRequestOf (trimBoth sampleFrontend.askValue)).repair
      = trimBoth sampleFrontend.askValue ∧
    (genRequestOf (trimBoth sampleFrontend.askValue)).extra
      = trimBoth sampleFrontend.askValue ∧
    (genRequestOf (trimBoth sampleFrontend.askValue)).mode ≠ "Warranty".toList :=
  claim_C9_frontend_request sampleFrontend (FetchOutcome.success (some ("ok".toList)))
    (by decide)


/-- Claim C10: when the ask is empty or whitespace-only after trimming,
generateStory sends no request, writes exactly the please-type message into
the output field, and leaves the generate button disabled state and label
unchanged. -/
theorem claim_C10_empty_ask (st : FrontendState) (o : FetchOutcome)
    (h : trimBoth st.askValue = []) :
    (generateStory st o).2 = none ∧
    (generateStory st o).1.outputValue = "Please type your ask first.".toList ∧
    (generateStory st o).1.btnDisabled = st.btnDisabled ∧
    (generateStory st o).1.btnText = st.btnText := by
  unfold generateStory
  rw [if_pos h]
  exact ⟨rfl, rfl, rfl, rfl⟩


/-- Witness for C10 at a whitespace-only ask. -/
theorem claim_C10_witness :
    (generateStory sampleFrontendEmpty FetchOutcome.networkFailure).2 = none ∧
    (generateStory sampleFrontendEmpty FetchOutcome.networkFailure).1.outputValue
      = "Please type your ask first.".toList ∧
    (generateStory sampleFrontendEmpty FetchOutcome.networkFailure).1.btnDisabled
      = sampleFrontendEmpty.btnDisabled ∧
    (generateStory sampleFrontendEmpty FetchOutcome.networkFailure).1.btnText
      = sampleFrontendEmpty.btnText :=
  claim_C10_empty_ask sampleFrontendEmpty FetchOutcome.networkFailure (by decide)


end FordTech

